import Mathlib

/-!
Verification of the adaptive curve-simplification engine of SciPlot
(`src/data_processing/utils/curve_simpler.py`) against its natural-language
specification.  The Python code is shallowly embedded: numpy arrays become
`List ℝ`, Python indexing and slicing (including negative indices and
clamping) are modelled exactly, fallible operations return `Option`, and the
floating-point arithmetic is idealised as real arithmetic.
-/

noncomputable section

namespace SciPlot

/-! ### Python list primitives -/

/-- Python indexing `l[i]`: negative indices count from the end; any
out-of-range access raises (modelled as `none`). -/
def pyGet {α : Type*} (l : List α) (i : ℤ) : Option α :=
  let j : ℤ := if i < 0 then i + l.length else i
  if 0 ≤ j ∧ j < l.length then l.get? j.toNat else none

/-- Normalisation of a Python slice bound: negative bounds are shifted by the
length, then the result is clamped to `[0, len]`. -/
def pyBound (n : ℕ) (i : ℤ) : ℕ :=
  (min (max (if i < 0 then i + n else i) 0) (n : ℤ)).toNat

/-- Python slicing `l[a:b]` (step 1). -/
def pySlice {α : Type*} (l : List α) (a b : ℤ) : List α :=
  (l.drop (pyBound l.length a)).take (pyBound l.length b - pyBound l.length a)

/-! ### numpy max / argmax on a vector of reals -/

/-- Auxiliary scan for `np.argmax`: `bv`/`bi` are the best value and index so
far, `i` is the index of the head of the remaining list.  The best entry is
replaced only on a strictly larger value, so the first occurrence of the
maximum wins, exactly as in numpy. -/
def argmaxAux : List ℝ → ℝ → ℕ → ℕ → ℕ
  | [], _, _, bi => bi
  | a :: t, bv, i, bi => if bv < a then argmaxAux t a (i + 1) i else argmaxAux t bv (i + 1) bi

/-- Model of `np.argmax` (index of the first maximal entry; 0 for the empty vector,
which never occurs in guarded uses). -/
def argmaxList : List ℝ → ℕ
  | [] => 0
  | a :: t => argmaxAux t a 1 0

/-- Model of `np.max` (junk value 0 for the empty vector, which never occurs in
guarded uses). -/
def listMax : List ℝ → ℝ
  | [] => 0
  | a :: t => t.foldl max a

theorem le_foldl_max : ∀ (t : List ℝ) (bv : ℝ), bv ≤ t.foldl max bv
  | [], _ => le_refl _
  | a :: t, bv => le_trans (le_max_left bv a) (le_foldl_max t (max bv a))

theorem mem_le_foldl_max : ∀ (t : List ℝ) (bv : ℝ), ∀ x ∈ t, x ≤ t.foldl max bv
  | a :: t, bv, x, hx => by
    rw [List.foldl_cons]
    rcases List.mem_cons.mp hx with rfl | hx
    · exact le_trans (le_max_right bv x) (le_foldl_max t (max bv x))
    · exact mem_le_foldl_max t (max bv a) x hx

/-- Membership form of `getD` for valid indices. -/
theorem getD_mem_of_lt {α : Type*} (l : List α) (j : ℕ) (d : α) (h : j < l.length) :
    l.getD j d ∈ l := by
  rw [List.getD_eq_getElem l d h]
  exact List.getElem_mem h

/-- Invariant of the argmax scan: the final answer is either the incoming
best index (when nothing beats the incoming best value) or the index of the
first strict improvement chain's end, i.e. the first occurrence of the
maximum. -/
theorem argmaxAux_inv : ∀ (t : List ℝ) (bv : ℝ) (i bi : ℕ),
    (argmaxAux t bv i bi = bi ∧ t.foldl max bv = bv) ∨
      (∃ k, k < t.length ∧ argmaxAux t bv i bi = i + k ∧ t.getD k 0 = t.foldl max bv ∧
        bv < t.foldl max bv ∧ ∀ j < k, t.getD j 0 < t.foldl max bv)
  | [], bv, i, bi => Or.inl ⟨rfl, rfl⟩
  | a :: t, bv, i, bi => by
    unfold argmaxAux
    by_cases hba : bv < a
    · rw [if_pos hba]
      have hmax : (a :: t).foldl max bv = t.foldl max a := by
        simp only [List.foldl_cons, max_eq_right (le_of_lt hba)]
      rcases argmaxAux_inv t a (i + 1) i with ⟨hr, hm⟩ | ⟨k, hk, hr, hv, hlt, hfirst⟩
      · right
        refine ⟨0, by simp, by rw [hr]; omega, ?_, ?_, by omega⟩
        · rw [List.getD_cons_zero, hmax, hm]
        · rw [hmax, hm]; exact hba
      · right
        refine ⟨k + 1, by simp only [List.length_cons]; omega, by rw [hr]; omega, ?_, ?_, ?_⟩
        · rw [List.getD_cons_succ, hmax]; exact hv
        · rw [hmax]; exact lt_trans hba hlt
        · intro j hj
          match j with
          | 0 => rw [List.getD_cons_zero, hmax]; exact hlt
          | j + 1 => rw [List.getD_cons_succ, hmax]; exact hfirst j (by omega)
    · rw [if_neg hba]
      have hmax : (a :: t).foldl max bv = t.foldl max bv := by
        simp only [List.foldl_cons, max_eq_left (not_lt.mp hba)]
      rcases argmaxAux_inv t bv (i + 1) bi with ⟨hr, hm⟩ | ⟨k, hk, hr, hv, hlt, hfirst⟩
      · exact Or.inl ⟨hr, by rw [hmax, hm]⟩
      · right
        refine ⟨k + 1, by simp only [List.length_cons]; omega, by rw [hr]; omega, ?_, ?_, ?_⟩
        · rw [List.getD_cons_succ, hmax]; exact hv
        · rw [hmax]; exact hlt
        · intro j hj
          match j with
          | 0 =>
            rw [List.getD_cons_zero, hmax]
            exact lt_of_le_of_lt (not_lt.mp hba) hlt
          | j + 1 => rw [List.getD_cons_succ, hmax]; exact hfirst j (by omega)

/-- The scan `np.argmax` returns the first index of the maximum: its value is the
maximum, all indices before it hold strictly smaller values, and all entries
are bounded by the maximum. -/
theorem argmax_first_max {l : List ℝ} (h : l ≠ []) :
    argmaxList l < l.length ∧ l.getD (argmaxList l) 0 = listMax l ∧
      (∀ j < argmaxList l, l.getD j 0 < listMax l) ∧
      (∀ j < l.length, l.getD j 0 ≤ listMax l) := by
  match l with
  | a :: t =>
    have hbound : ∀ j < (a :: t).length, (a :: t).getD j 0 ≤ listMax (a :: t) := by
      intro j hj
      show _ ≤ t.foldl max a
      match j with
      | 0 => rw [List.getD_cons_zero]; exact le_foldl_max t a
      | j + 1 =>
        rw [List.getD_cons_succ]
        refine mem_le_foldl_max t a _ (getD_mem_of_lt t j 0 ?_)
        simp only [List.length_cons] at hj
        omega
    rcases argmaxAux_inv t a 1 0 with ⟨hr, hm⟩ | ⟨k, hk, hr, hv, hlt, hfirst⟩
    · refine ⟨?_, ?_, ?_, hbound⟩
      · show argmaxAux t a 1 0 < _
        rw [hr]
        simp
      · show (a :: t).getD (argmaxAux t a 1 0) 0 = _
        rw [hr, List.getD_cons_zero]
        show a = t.foldl max a
        rw [hm]
      · show ∀ j < argmaxAux t a 1 0, _
        rw [hr]
        omega
    · refine ⟨?_, ?_, ?_, hbound⟩
      · show argmaxAux t a 1 0 < _
        rw [hr]
        simp only [List.length_cons]
        omega
      · show (a :: t).getD (argmaxAux t a 1 0) 0 = _
        rw [hr, Nat.add_comm 1 k]
        show (a :: t).getD (k + 1) 0 = t.foldl max a
        rw [List.getD_cons_succ]
        exact hv
      · show ∀ j < argmaxAux t a 1 0, (a :: t).getD j 0 < _
        rw [hr]
        intro j hj
        show _ < t.foldl max a
        match j with
        | 0 => rw [List.getD_cons_zero]; exact hlt
        | j + 1 => rw [List.getD_cons_succ]; exact hfirst j (by omega)

/-- Conversely, an index holding the maximum with strictly smaller values
before it is the argmax. -/
theorem argmax_eq_first {l : List ℝ} {c : ℕ} (hc : c < l.length)
    (hval : l.getD c 0 = listMax l) (hfirst : ∀ j < c, l.getD j 0 < listMax l) :
    argmaxList l = c := by
  have hne : l ≠ [] := by intro hnil; rw [hnil] at hc; simp at hc
  obtain ⟨hA, hAval, hAfirst, hAbound⟩ := argmax_first_max hne
  rcases lt_trichotomy (argmaxList l) c with h | h | h
  · have h1 := hfirst _ h
    rw [hAval] at h1
    exact absurd h1 (lt_irrefl _)
  · exact h
  · have h1 := hAfirst _ h
    rw [hval] at h1
    exact absurd h1 (lt_irrefl _)

/-- A value attained somewhere and bounding every entry is the maximum. -/
theorem listMax_eq_of {l : List ℝ} {c : ℕ} {M : ℝ} (hc : c < l.length)
    (hval : l.getD c 0 = M) (hbound : ∀ j < l.length, l.getD j 0 ≤ M) :
    listMax l = M := by
  have hne : l ≠ [] := by intro hnil; rw [hnil] at hc; simp at hc
  obtain ⟨hA, hAval, hAfirst, hAbound⟩ := argmax_first_max hne
  exact le_antisymm (hAval ▸ hbound _ hA) (hval ▸ hAbound _ hc)

/-! ### Curve data model -/

/-- Model of `CurveData`: a 2-D curve stored as parallel x/y vectors. -/
structure CurveData where
  x : List ℝ
  y : List ℝ
deriving DecidableEq

/-- Model of `CurveData.points`: the `(N, 2)` point-pair view (`np.column_stack`). -/
def CurveData.points (d : CurveData) : List (ℝ × ℝ) := d.x.zip d.y

/-! ### Distance evaluator (`_perpendicular_distance`) -/

/-- Model of `CurveSimplifier._perpendicular_distance`: distances from a batch of
points to the chord through `start`/`end`; if the chord is degenerate
(`np.all(start == end)`), the Euclidean distance to that single point. -/
def perpendicularDistance (points : List (ℝ × ℝ)) (start end_ : ℝ × ℝ) : List ℝ :=
  if start = end_ then
    points.map fun p =>
      Real.sqrt ((p.1 - start.1) * (p.1 - start.1) + (p.2 - start.2) * (p.2 - start.2))
  else
    let dx := end_.1 - start.1
    let dy := end_.2 - start.2
    points.map fun p =>
      |dy * p.1 - dx * p.2 - start.1 * dy + start.2 * dx| / Real.sqrt (dx * dx + dy * dy)

/-- Per-point form of the distance evaluator. -/
def pointLineDist (start end_ p : ℝ × ℝ) : ℝ :=
  if start = end_ then
    Real.sqrt ((p.1 - start.1) * (p.1 - start.1) + (p.2 - start.2) * (p.2 - start.2))
  else
    let dx := end_.1 - start.1
    let dy := end_.2 - start.2
    |dy * p.1 - dx * p.2 - start.1 * dy + start.2 * dx| / Real.sqrt (dx * dx + dy * dy)

theorem perpendicularDistance_eq_map (points : List (ℝ × ℝ)) (s e : ℝ × ℝ) :
    perpendicularDistance points s e = points.map (pointLineDist s e) := by
  unfold perpendicularDistance pointLineDist
  split <;> rfl

/-- The distance contract as worded in the specification (§4.1): perpendicular
distance `|dy·px − dx·py − x0·dy + y0·dx| / sqrt(dx² + dy²)` to the infinite
line through `A` and `B`, and the Euclidean distance to `A` when `A = B`. -/
def specChordDistance (A B P : ℝ × ℝ) : ℝ :=
  if A = B then
    Real.sqrt ((P.1 - A.1) ^ 2 + (P.2 - A.2) ^ 2)
  else
    let dx := B.1 - A.1
    let dy := B.2 - A.2
    |dy * P.1 - dx * P.2 - A.1 * dy + A.2 * dx| / Real.sqrt (dx ^ 2 + dy ^ 2)

/-! ### Simplification engine (`_douglas_peucker_iterative`) -/

/-- The distances computed for one popped range `(s, e)`:
`self._perpendicular_distance(segment[1:-1], segment[0], segment[-1])`
with `segment = points[start:end+1]`. -/
def dpSplitDistances (points : List (ℝ × ℝ)) (s e : ℤ) : List ℝ :=
  let segment := pySlice points s (e + 1)
  perpendicularDistance (pySlice segment 1 (-1)) segment.headI segment.getLastI

/-- One iteration body of the Douglas-Peucker work-loop: `none` when the
range is discarded (`end - start <= 1`, `len(segment) <= 2`, or
`dmax <= epsilon`), `some index` when the range is split at `index`
(`np.argmax(distances) + start + 1`). -/
def dpSplit (points : List (ℝ × ℝ)) (ε : ℝ) (s e : ℤ) : Option ℤ :=
  if e - s ≤ 1 then none
  else
    let segment := pySlice points s (e + 1)
    if segment.length ≤ 2 then none
    else
      let distances := dpSplitDistances points s e
      if ε < listMax distances then some ((argmaxList distances : ℤ) + s + 1) else none

theorem dpSplit_le_one {points : List (ℝ × ℝ)} {ε : ℝ} {s e : ℤ} (h : e - s ≤ 1) :
    dpSplit points ε s e = none := by
  unfold dpSplit
  simp [h]

theorem pyBound_le (n : ℕ) (i : ℤ) : pyBound n i ≤ n := by
  unfold pyBound
  split_ifs <;> omega

theorem pyBound_sub_le (n : ℕ) {a b : ℤ} (hab : a ≤ b) :
    (pyBound n b : ℤ) - pyBound n a ≤ b - a := by
  unfold pyBound
  split_ifs <;> omega

theorem length_pySlice_le {α : Type*} (l : List α) {a b : ℤ} (hab : a ≤ b) :
    ((pySlice l a b).length : ℤ) ≤ b - a := by
  have h1 := pyBound_sub_le l.length hab
  have h2 : (pySlice l a b).length ≤ pyBound l.length b - pyBound l.length a := by
    unfold pySlice
    simp only [List.length_take, List.length_drop]
    omega
  omega

theorem length_pySlice_drop {α : Type*} (l : List α) {a b : ℤ} (ha : 0 ≤ a) (hb : b ≤ l.length)
    (hab : a ≤ b) : (pySlice l a b).length = (b - a).toNat := by
  have ha' : pyBound l.length a = a.toNat := by unfold pyBound; split_ifs <;> omega
  have hb' : pyBound l.length b = b.toNat := by unfold pyBound; split_ifs <;> omega
  unfold pySlice
  rw [ha', hb']
  simp only [List.length_take, List.length_drop]
  omega

theorem length_perpendicularDistance (points : List (ℝ × ℝ)) (s e : ℝ × ℝ) :
    (perpendicularDistance points s e).length = points.length := by
  rw [perpendicularDistance_eq_map]
  simp

/-- The interior slice `segment[1:-1]` has exactly `len - 2` points. -/
theorem length_pySlice_interior {α : Type*} (l : List α) (h : 2 ≤ l.length) :
    (pySlice l 1 (-1)).length = l.length - 2 := by
  have h1 : pyBound l.length 1 = 1 := by unfold pyBound; split_ifs <;> omega
  have h2 : pyBound l.length (-1) = l.length - 1 := by unfold pyBound; split_ifs <;> omega
  unfold pySlice
  rw [h1, h2]
  simp [List.length_take, List.length_drop]
  omega

theorem argmaxAux_cases : ∀ (t : List ℝ) (bv : ℝ) (i bi : ℕ),
    argmaxAux t bv i bi = bi ∨ (i ≤ argmaxAux t bv i bi ∧ argmaxAux t bv i bi < i + t.length)
  | [], _, _, _ => Or.inl rfl
  | a :: t, bv, i, bi => by
    unfold argmaxAux
    split_ifs
    · rcases argmaxAux_cases t a (i + 1) i with h | h
      · right; rw [h]; simp
      · right; constructor <;> [omega; (simp only [List.length_cons]; omega)]
    · rcases argmaxAux_cases t bv (i + 1) bi with h | h
      · left; exact h
      · right; constructor <;> [omega; (simp only [List.length_cons]; omega)]

theorem argmaxList_lt_length {l : List ℝ} (h : l ≠ []) : argmaxList l < l.length := by
  match l with
  | a :: t =>
    unfold argmaxList
    rcases argmaxAux_cases t a 1 0 with h' | h' <;> simp only [List.length_cons] <;> omega

/-- Let-free unfolding of `dpSplit`. -/
theorem dpSplit_def (points : List (ℝ × ℝ)) (ε : ℝ) (s e : ℤ) :
    dpSplit points ε s e =
      if e - s ≤ 1 then none
      else if (pySlice points s (e + 1)).length ≤ 2 then none
      else if ε < listMax (dpSplitDistances points s e) then
        some ((argmaxList (dpSplitDistances points s e) : ℤ) + s + 1)
      else none := by
  unfold dpSplit
  rfl

/-- The interior distance vector of a popped range has `len(segment) - 2`
entries. -/
theorem length_dpSplitDistances (points : List (ℝ × ℝ)) (s e : ℤ)
    (h : 2 ≤ (pySlice points s (e + 1)).length) :
    (dpSplitDistances points s e).length = (pySlice points s (e + 1)).length - 2 := by
  unfold dpSplitDistances
  rw [length_perpendicularDistance, length_pySlice_interior _ h]

/-- A range is split only at a strictly interior index. -/
theorem dpSplit_bounds {points : List (ℝ × ℝ)} {ε : ℝ} {s e i : ℤ}
    (h : dpSplit points ε s e = some i) : s + 1 ≤ i ∧ i ≤ e - 1 ∧ 2 ≤ e - s := by
  rw [dpSplit_def] at h
  split_ifs at h with h1 h2 h3
  simp only [Option.some.injEq] at h
  have hgap : 2 ≤ e - s := by omega
  have hlen3 : 3 ≤ (pySlice points s (e + 1)).length := by omega
  have hlenle : ((pySlice points s (e + 1)).length : ℤ) ≤ e + 1 - s := by
    have := length_pySlice_le points (a := s) (b := e + 1) (by omega)
    omega
  have hdlen := length_dpSplitDistances points s e (by omega)
  have hne : dpSplitDistances points s e ≠ [] := by
    intro hnil
    rw [hnil] at hdlen
    simp at hdlen
    omega
  have harg := argmaxList_lt_length hne
  omega

theorem three_pow_split (g1 g2 : ℕ) (h1 : 1 ≤ g1) (h2 : 1 ≤ g2) :
    3 ^ g1 + 3 ^ g2 + 1 < 3 ^ (g1 + g2) := by
  have ha : 3 ≤ 3 ^ g1 := by
    calc 3 = 3 ^ 1 := by norm_num
    _ ≤ 3 ^ g1 := Nat.pow_le_pow_right (by norm_num) h1
  have hb : 3 ≤ 3 ^ g2 := by
    calc 3 = 3 ^ 1 := by norm_num
    _ ≤ 3 ^ g2 := Nat.pow_le_pow_right (by norm_num) h2
  rw [pow_add]
  nlinarith

/-- The Douglas-Peucker work-loop: pop a range, discard or split it, and
record split indices in `result` (the stack top is the list head; the two
sub-ranges are pushed so that `(index, end)` is popped first, as with
Python's `list.extend` + `list.pop`). -/
def dpLoop (points : List (ℝ × ℝ)) (ε : ℝ) : List (ℤ × ℤ) → List ℤ → List ℤ
  | [], result => result
  | (s, e) :: stack, result =>
    match h : dpSplit points ε s e with
    | none => dpLoop points ε stack result
    | some index => dpLoop points ε ((index, e) :: (s, index) :: stack) (result ++ [index])
termination_by st _ => (st.map fun p => 3 ^ (p.2 - p.1).toNat).sum + st.length
decreasing_by
  · simp only [List.map_cons, List.sum_cons, List.length_cons]
    have : 1 ≤ 3 ^ (e - s).toNat := Nat.one_le_pow _ _ (by norm_num)
    omega
  · obtain ⟨hb1, hb2, hb3⟩ := dpSplit_bounds h
    simp only [List.map_cons, List.sum_cons, List.length_cons]
    have hsplit := three_pow_split (index - s).toNat (e - index).toNat (by omega) (by omega)
    have hsum : (index - s).toNat + (e - index).toNat = (e - s).toNat := by omega
    rw [hsum] at hsplit
    omega

/-- The retained index list `sorted(set(result))` of one simplification
pass. -/
def dpIndices (points : List (ℝ × ℝ)) (ε : ℝ) : List ℤ :=
  List.insertionSort (· ≤ ·)
    (dpLoop points ε [(0, (points.length : ℤ) - 1)] [0, (points.length : ℤ) - 1]).dedup

/-- Model of `CurveSimplifier._douglas_peucker_iterative`:
`[points[i] for i in sorted(set(result))]` (indexing an empty array raises,
hence `Option`). -/
def douglasPeuckerIterative (points : List (ℝ × ℝ)) (ε : ℝ) : Option (List (ℝ × ℝ)) :=
  (dpIndices points ε).mapM (pyGet points)

/-- Model of `CurveSimplifier._simplify_with_epsilon`. -/
def simplifyWithEpsilon (d : CurveData) (ε : ℝ) : Option CurveData :=
  (douglasPeuckerIterative d.points ε).map fun kp => ⟨kp.map Prod.fst, kp.map Prod.snd⟩

/-! ### Exact description of a popped range for in-bounds indices -/

theorem headI_eq_getD {α : Type*} [Inhabited α] (l : List α) :
    l.headI = l.getD 0 default := by
  cases l <;> rfl

theorem getLastI_eq_getD {α : Type*} [Inhabited α] (l : List α) (h : l ≠ []) :
    l.getLastI = l.getD (l.length - 1) default := by
  have hlen : 0 < l.length := List.length_pos.mpr h
  rw [List.getLastI_eq_getLast?, List.getLast?_eq_getLast_of_ne_nil h, Option.iget_some,
    List.getLast_eq_getElem, List.getD_eq_getElem _ _ (by omega)]

theorem pySlice_getD {α : Type*} (l : List α) {s e : ℤ} (hs : 0 ≤ s) (hb : e ≤ l.length)
    (k : ℕ) (hk : k < (e - s).toNat) (d : α) :
    (pySlice l s e).getD k d = l.getD (s.toNat + k) d := by
  have ha' : pyBound l.length s = s.toNat := by unfold pyBound; split_ifs <;> omega
  have hb' : pyBound l.length e = e.toNat := by unfold pyBound; split_ifs <;> omega
  have h1 : s.toNat + k < l.length := by omega
  have h2 : k < e.toNat - s.toNat := by omega
  have h3 : k < l.length - s.toNat := by omega
  unfold pySlice
  rw [ha', hb']
  rw [List.getD_eq_getElem _ _ (by
    simp only [List.length_take, List.length_drop]
    omega)]
  rw [List.getElem_take, List.getElem_drop]
  rw [List.getD_eq_getElem _ _ h1]

/-- For an in-bounds range `0 ≤ s`, `s + 2 ≤ e < len`, the distance vector of
the popped range has one entry per interior index, each the distance from
`points[s+1+k]` to the chord `(points[s], points[e])`. -/
theorem dpSplitDistances_inrange (l : List (ℝ × ℝ)) {s e : ℤ} (hs : 0 ≤ s) (hse : s + 2 ≤ e)
    (he : e < l.length) :
    (dpSplitDistances l s e).length = (e - s - 1).toNat ∧
      ∀ k : ℕ, k < (e - s - 1).toNat →
        (dpSplitDistances l s e).getD k 0 =
          pointLineDist (l.getD s.toNat (0, 0)) (l.getD e.toNat (0, 0))
            (l.getD (s.toNat + 1 + k) (0, 0)) := by
  have hseg_len : (pySlice l s (e + 1)).length = (e + 1 - s).toNat :=
    length_pySlice_drop l hs (by omega) (by omega)
  have hseg_ne : pySlice l s (e + 1) ≠ [] := by
    intro hnil
    rw [hnil] at hseg_len
    simp at hseg_len
    omega
  have hseg_getD : ∀ k : ℕ, k < (e + 1 - s).toNat →
      (pySlice l s (e + 1)).getD k (0, 0) = l.getD (s.toNat + k) (0, 0) := by
    intro k hk
    exact pySlice_getD l hs (by omega) k (by omega) (0, 0)
  have hhead : (pySlice l s (e + 1)).headI = l.getD s.toNat (0, 0) := by
    rw [headI_eq_getD]
    have := hseg_getD 0 (by omega)
    simpa using this
  have hlast : (pySlice l s (e + 1)).getLastI = l.getD e.toNat (0, 0) := by
    rw [getLastI_eq_getD _ hseg_ne, hseg_len,
      show (default : ℝ × ℝ) = (0, 0) from rfl]
    have := hseg_getD ((e + 1 - s).toNat - 1) (by omega)
    rw [this]
    congr 1
    omega
  set seg := pySlice l s (e + 1) with hsegdef
  have hinner_len : (pySlice seg 1 (-1)).length = (e - s - 1).toNat := by
    rw [length_pySlice_interior _ (by omega), hseg_len]
    omega
  have hinner_getD : ∀ k : ℕ, k < (e - s - 1).toNat →
      (pySlice seg 1 (-1)).getD k (0, 0) = l.getD (s.toNat + 1 + k) (0, 0) := by
    intro k hk
    have h1 : pyBound seg.length 1 = 1 := by
      unfold pyBound; split_ifs <;> omega
    have h2 : pyBound seg.length (-1) = seg.length - 1 := by
      unfold pyBound; split_ifs <;> omega
    show (pySlice seg 1 (-1)).getD k (0, 0) = _
    rw [pySlice, h1, h2]
    rw [List.getD_eq_getElem _ _ (by
      simp only [List.length_take, List.length_drop]
      omega)]
    rw [List.getElem_take, List.getElem_drop]
    rw [← List.getD_eq_getElem _ (0, 0) (by omega)]
    rw [hseg_getD (1 + k) (by omega)]
    congr 1
    omega
  have hmap : dpSplitDistances l s e =
      (pySlice (pySlice l s (e + 1)) 1 (-1)).map
        (pointLineDist (l.getD s.toNat (0, 0)) (l.getD e.toNat (0, 0))) := by
    unfold dpSplitDistances
    dsimp only
    rw [perpendicularDistance_eq_map, hhead, hlast]
  constructor
  · rw [hmap, List.length_map, hinner_len]
  · intro k hk
    rw [hmap]
    rw [List.getD_eq_getElem _ _ (by rw [List.length_map, hinner_len]; omega)]
    rw [List.getElem_map]
    rw [← List.getD_eq_getElem _ (0, 0) (by rw [hinner_len]; omega)]
    rw [hinner_getD k hk]

/-- For an in-bounds range the two Python-level length guards are passed, so
`dpSplit` reduces to the max/argmax test. -/
theorem dpSplit_inrange (l : List (ℝ × ℝ)) (ε : ℝ) {s e : ℤ} (hs : 0 ≤ s) (hse : s + 2 ≤ e)
    (he : e < l.length) :
    dpSplit l ε s e =
      if ε < listMax (dpSplitDistances l s e) then
        some ((argmaxList (dpSplitDistances l s e) : ℤ) + s + 1)
      else none := by
  rw [dpSplit_def]
  rw [if_neg (by omega : ¬e - s ≤ 1)]
  rw [if_neg (by
    rw [length_pySlice_drop l hs (by omega) (by omega)]
    omega)]

/-! ### Recursive mirror of the Douglas-Peucker pass

`dpRecSet points ε s e` is the set of split indices the loop produces for the
subtree rooted at range `(s, e)`; it lets the iterative worklist be analysed
by induction on ranges. -/

def dpRecSet (points : List (ℝ × ℝ)) (ε : ℝ) (s e : ℤ) : Finset ℤ :=
  match h : dpSplit points ε s e with
  | none => ∅
  | some i => insert i (dpRecSet points ε s i ∪ dpRecSet points ε i e)
termination_by (e - s).toNat
decreasing_by
  · have := dpSplit_bounds h; omega
  · have := dpSplit_bounds h; omega

theorem dpRecSet_eq_none {points : List (ℝ × ℝ)} {ε : ℝ} {s e : ℤ}
    (h : dpSplit points ε s e = none) : dpRecSet points ε s e = ∅ := by
  rw [dpRecSet]
  split <;> simp_all

theorem dpRecSet_eq_some {points : List (ℝ × ℝ)} {ε : ℝ} {s e i : ℤ}
    (h : dpSplit points ε s e = some i) :
    dpRecSet points ε s e = insert i (dpRecSet points ε s i ∪ dpRecSet points ε i e) := by
  rw [dpRecSet]
  split <;> simp_all

/-- Split indices of a subtree lie strictly inside their range. -/
theorem dpRecSet_mem_between {points : List (ℝ × ℝ)} {ε : ℝ} :
    ∀ {s e x : ℤ}, x ∈ dpRecSet points ε s e → s < x ∧ x < e := by
  intro s e
  generalize hm : (e - s).toNat = m
  induction m using Nat.strong_induction_on generalizing s e with
  | _ m ih =>
    intro x hx
    match hsp : dpSplit points ε s e with
    | none => rw [dpRecSet_eq_none hsp] at hx; simp at hx
    | some i =>
      obtain ⟨hb1, hb2, hb3⟩ := dpSplit_bounds hsp
      rw [dpRecSet_eq_some hsp] at hx
      simp only [Finset.mem_insert, Finset.mem_union] at hx
      rcases hx with hx | hx | hx
      · omega
      · have := ih (i - s).toNat (by omega) (s := s) (e := i) rfl hx
        omega
      · have := ih (e - i).toNat (by omega) (s := i) (e := e) rfl hx
        omega

theorem dpLoop_nil (points : List (ℝ × ℝ)) (ε : ℝ) (res : List ℤ) :
    dpLoop points ε [] res = res := by
  rw [dpLoop]

theorem dpLoop_cons_none {points : List (ℝ × ℝ)} {ε : ℝ} {s e : ℤ}
    (stack : List (ℤ × ℤ)) (res : List ℤ) (h : dpSplit points ε s e = none) :
    dpLoop points ε ((s, e) :: stack) res = dpLoop points ε stack res := by
  rw [dpLoop]
  split <;> simp_all

theorem dpLoop_cons_some {points : List (ℝ × ℝ)} {ε : ℝ} {s e i : ℤ}
    (stack : List (ℤ × ℤ)) (res : List ℤ) (h : dpSplit points ε s e = some i) :
    dpLoop points ε ((s, e) :: stack) res =
      dpLoop points ε ((i, e) :: (s, i) :: stack) (res ++ [i]) := by
  rw [dpLoop]
  split <;> simp_all

/-- The iterative worklist computes, as a set, the initial result list plus
the recursive split sets of every stacked range. -/
theorem dpLoop_toFinset (points : List (ℝ × ℝ)) (ε : ℝ) :
    ∀ (stack : List (ℤ × ℤ)) (res : List ℤ),
      (dpLoop points ε stack res).toFinset =
        res.toFinset ∪ stack.foldr (fun p acc => dpRecSet points ε p.1 p.2 ∪ acc) ∅ := by
  intro stack res
  induction stack, res using dpLoop.induct points ε with
  | case1 res => simp [dpLoop_nil]
  | case2 s e stack res h ih =>
    rw [dpLoop_cons_none stack res h, ih]
    simp [dpRecSet_eq_none h]
  | case3 s e stack res i h ih =>
    rw [dpLoop_cons_some stack res h, ih]
    ext a
    simp only [List.toFinset_append, Finset.mem_union, List.mem_toFinset, List.foldr_cons,
      Finset.mem_insert, List.mem_singleton, dpRecSet_eq_some h, List.toFinset_cons]
    tauto

/-- The retained index set of one full pass:
endpoints plus all split indices. -/
theorem dpIndices_toFinset (points : List (ℝ × ℝ)) (ε : ℝ) :
    (dpIndices points ε).toFinset =
      {0, (points.length : ℤ) - 1} ∪ dpRecSet points ε 0 ((points.length : ℤ) - 1) := by
  unfold dpIndices
  ext a
  rw [List.mem_toFinset, List.mem_insertionSort, List.mem_dedup, ← List.mem_toFinset,
    dpLoop_toFinset]
  simp

theorem mem_dpIndices {points : List (ℝ × ℝ)} {ε : ℝ} {a : ℤ} :
    a ∈ dpIndices points ε ↔
      a ∈ ({0, (points.length : ℤ) - 1} : Finset ℤ) ∪
          dpRecSet points ε 0 ((points.length : ℤ) - 1) := by
  rw [← List.mem_toFinset, dpIndices_toFinset]

theorem nodup_dpIndices (points : List (ℝ × ℝ)) (ε : ℝ) : (dpIndices points ε).Nodup :=
  (List.perm_insertionSort _ _).nodup_iff.mpr (List.nodup_dedup _)

theorem sorted_dpIndices (points : List (ℝ × ℝ)) (ε : ℝ) :
    List.Sorted (· ≤ ·) (dpIndices points ε) :=
  List.sorted_insertionSort _ _

theorem length_dpIndices (points : List (ℝ × ℝ)) (ε : ℝ) :
    (dpIndices points ε).length = (dpIndices points ε).toFinset.card :=
  (List.toFinset_card_of_nodup (nodup_dpIndices points ε)).symm

/-! ### Claims C1-C3 -/

/-- C1: for every input curve with at least 2 points and every tolerance, the
index set retained by the simplification pass contains index `0` and index
`N - 1` of the input, so both original endpoints are preserved. -/
theorem C1_endpoints_retained (points : List (ℝ × ℝ)) (ε : ℝ) (h : 2 ≤ points.length) :
    0 ∈ dpIndices points ε ∧ ((points.length : ℤ) - 1) ∈ dpIndices points ε := by
  refine ⟨?_, ?_⟩ <;> (rw [mem_dpIndices]; simp)

theorem C1_endpoints_retained_witness :
    2 ≤ ([((0 : ℝ), (0 : ℝ)), (1, 0)]).length ∧
      (0 ∈ dpIndices [((0 : ℝ), (0 : ℝ)), (1, 0)] 1 ∧
        ((([((0 : ℝ), (0 : ℝ)), (1, 0)]).length : ℤ) - 1) ∈
          dpIndices [((0 : ℝ), (0 : ℝ)), (1, 0)] 1) :=
  ⟨by norm_num, C1_endpoints_retained [((0 : ℝ), (0 : ℝ)), (1, 0)] 1 (by norm_num)⟩

/-- C2: the distance evaluator returns, for each point of the batch, exactly
the value prescribed by the specification: the perpendicular-distance formula
`|dy·px − dx·py − x0·dy + y0·dx| / sqrt(dx² + dy²)` when the chord endpoints
differ, and the Euclidean distance to the single endpoint when they
coincide. -/
theorem C2_distance_formula (points : List (ℝ × ℝ)) (A B : ℝ × ℝ) :
    perpendicularDistance points A B = points.map (specChordDistance A B) := by
  rw [perpendicularDistance_eq_map]
  have hfun : pointLineDist A B = specChordDistance A B := by
    funext p
    unfold pointLineDist specChordDistance
    split_ifs with hAB
    · congr 1
      ring
    · dsimp only
      rw [show (B.1 - A.1) * (B.1 - A.1) + (B.2 - A.2) * (B.2 - A.2)
            = (B.1 - A.1) ^ 2 + (B.2 - A.2) ^ 2 from by ring]
  rw [hfun]

/-- A larger tolerance can only remove split decisions, never add them. -/
theorem dpSplit_antitone {ε₁ ε₂ : ℝ} (hε : ε₁ ≤ ε₂) {points : List (ℝ × ℝ)} {s e i : ℤ}
    (h : dpSplit points ε₂ s e = some i) : dpSplit points ε₁ s e = some i := by
  rw [dpSplit_def] at h ⊢
  split_ifs at h with h1 h2 h3
  rw [if_neg h1, if_neg h2, if_pos (lt_of_le_of_lt hε h3)]
  exact h

theorem dpRecSet_antitone {ε₁ ε₂ : ℝ} (hε : ε₁ ≤ ε₂) (points : List (ℝ × ℝ)) :
    ∀ s e : ℤ, dpRecSet points ε₂ s e ⊆ dpRecSet points ε₁ s e := by
  intro s e
  generalize hm : (e - s).toNat = m
  induction m using Nat.strong_induction_on generalizing s e with
  | _ m ih =>
    match hsp : dpSplit points ε₂ s e with
    | none => rw [dpRecSet_eq_none hsp]; exact Finset.empty_subset _
    | some i =>
      obtain ⟨hb1, hb2, hb3⟩ := dpSplit_bounds hsp
      rw [dpRecSet_eq_some hsp, dpRecSet_eq_some (dpSplit_antitone hε hsp)]
      exact Finset.insert_subset_insert i
        (Finset.union_subset_union
          (ih (i - s).toNat (by omega) (s := s) (e := i) rfl)
          (ih (e - i).toNat (by omega) (s := i) (e := e) rfl))

/-- C3: for a fixed curve, a tolerance `t₁ ≤ t₂` retains at least as many
indices at `t₁` as at `t₂`: larger tolerance never retains more points. -/
theorem C3_tolerance_monotone (points : List (ℝ × ℝ)) {t₁ t₂ : ℝ} (h : t₁ ≤ t₂) :
    (dpIndices points t₂).length ≤ (dpIndices points t₁).length := by
  rw [length_dpIndices, length_dpIndices]
  apply Finset.card_le_card
  rw [dpIndices_toFinset, dpIndices_toFinset]
  exact Finset.union_subset_union (subset_refl _) (dpRecSet_antitone h points _ _)

/-! ### Structure of the retained index list -/

theorem pairwise_lt_dpIndices (points : List (ℝ × ℝ)) (ε : ℝ) :
    List.Pairwise (· < ·) (dpIndices points ε) :=
  ((sorted_dpIndices points ε).and (nodup_dpIndices points ε)).imp
    fun h => lt_of_le_of_ne h.1 h.2

theorem dpIndices_getD_strictMono (points : List (ℝ × ℝ)) (ε : ℝ) {a b : ℕ}
    (hab : a < b) (hb : b < (dpIndices points ε).length) :
    (dpIndices points ε).getD a 0 < (dpIndices points ε).getD b 0 := by
  have h := (List.pairwise_iff_get.mp (pairwise_lt_dpIndices points ε))
    ⟨a, by omega⟩ ⟨b, hb⟩ hab
  rw [List.getD_eq_getElem _ _ (by omega), List.getD_eq_getElem _ _ hb]
  simpa using h

theorem dpIndices_getD_mono_iff (points : List (ℝ × ℝ)) (ε : ℝ) {a b : ℕ}
    (ha : a < (dpIndices points ε).length) (hb : b < (dpIndices points ε).length) :
    (dpIndices points ε).getD a 0 < (dpIndices points ε).getD b 0 ↔ a < b := by
  constructor
  · intro h
    by_contra hab
    push_neg at hab
    rcases lt_or_eq_of_le hab with hba | hba
    · exact absurd (lt_trans h (dpIndices_getD_strictMono points ε hba ha)) (lt_irrefl _)
    · rw [hba] at h; exact absurd h (lt_irrefl _)
  · intro h
    exact dpIndices_getD_strictMono points ε h hb

theorem dpIndices_mem_bounds {points : List (ℝ × ℝ)} {ε : ℝ} (hn : 1 ≤ points.length)
    {x : ℤ} (hx : x ∈ dpIndices points ε) : 0 ≤ x ∧ x ≤ (points.length : ℤ) - 1 := by
  rw [mem_dpIndices] at hx
  simp only [Finset.mem_union, Finset.mem_insert, Finset.mem_singleton] at hx
  rcases hx with (hx | hx) | hx
  · omega
  · omega
  · have := dpRecSet_mem_between hx
    omega

theorem dpIndices_exists_getD {points : List (ℝ × ℝ)} {ε : ℝ} {x : ℤ}
    (hx : x ∈ dpIndices points ε) :
    ∃ k, k < (dpIndices points ε).length ∧ (dpIndices points ε).getD k 0 = x := by
  obtain ⟨⟨k, hk⟩, hget⟩ := List.mem_iff_get.mp hx
  exact ⟨k, hk, by rw [List.getD_eq_getElem _ _ hk]; simpa using hget⟩

theorem dpIndices_length_ge_two {points : List (ℝ × ℝ)} {ε : ℝ} (hn : 2 ≤ points.length) :
    2 ≤ (dpIndices points ε).length := by
  rw [length_dpIndices, dpIndices_toFinset]
  have hsub : ({0, (points.length : ℤ) - 1} : Finset ℤ) ⊆
      ({0, (points.length : ℤ) - 1} : Finset ℤ) ∪
        dpRecSet points ε 0 ((points.length : ℤ) - 1) := Finset.subset_union_left
  have hcard : ({0, (points.length : ℤ) - 1} : Finset ℤ).card = 2 := by
    rw [Finset.card_insert_of_not_mem (by simp; omega), Finset.card_singleton]
  have hle := Finset.card_le_card hsub
  omega

theorem dpIndices_getD_head {points : List (ℝ × ℝ)} {ε : ℝ} (hn : 2 ≤ points.length) :
    (dpIndices points ε).getD 0 0 = 0 := by
  have hmem : (0 : ℤ) ∈ dpIndices points ε := by
    rw [mem_dpIndices]; simp
  obtain ⟨k, hk, hget⟩ := dpIndices_exists_getD hmem
  have hlen := dpIndices_length_ge_two (ε := ε) hn
  have h0 : (dpIndices points ε).getD 0 0 ∈ dpIndices points ε :=
    getD_mem_of_lt _ 0 0 (by omega)
  have hge := (dpIndices_mem_bounds (by omega) h0).1
  rcases Nat.eq_zero_or_pos k with rfl | hkpos
  · exact hget
  · have := dpIndices_getD_strictMono points ε hkpos hk
    omega

theorem dpIndices_getD_last {points : List (ℝ × ℝ)} {ε : ℝ} (hn : 2 ≤ points.length) :
    (dpIndices points ε).getD ((dpIndices points ε).length - 1) 0 =
      (points.length : ℤ) - 1 := by
  have hmem : ((points.length : ℤ) - 1) ∈ dpIndices points ε := by
    rw [mem_dpIndices]; simp
  obtain ⟨k, hk, hget⟩ := dpIndices_exists_getD hmem
  have hlen := dpIndices_length_ge_two (ε := ε) hn
  have h0 : (dpIndices points ε).getD ((dpIndices points ε).length - 1) 0 ∈ dpIndices points ε :=
    getD_mem_of_lt _ _ 0 (by omega)
  have hle := (dpIndices_mem_bounds (by omega) h0).2
  rcases Nat.lt_or_ge k ((dpIndices points ε).length - 1) with hklt | hkge
  · have := dpIndices_getD_strictMono points ε hklt (by omega)
    omega
  · have hkeq : k = (dpIndices points ε).length - 1 := by omega
    rw [← hkeq]
    exact hget

/-! ### Gathering the retained points -/

theorem pyGet_inrange {α : Type*} (l : List α) {i : ℤ} (h0 : 0 ≤ i) (hl : i < l.length)
    (d : α) : pyGet l i = some (l.getD i.toNat d) := by
  unfold pyGet
  dsimp only
  rw [if_neg (by omega : ¬i < 0), if_pos (by omega : 0 ≤ i ∧ i < (l.length : ℤ))]
  rw [List.get?_eq_getElem?, List.getElem?_eq_getElem (by omega),
    List.getD_eq_getElem _ _ (by omega)]

theorem mapM_pyGet {α : Type*} (l : List α) (d : α) :
    ∀ (idxs : List ℤ), (∀ i ∈ idxs, 0 ≤ i ∧ i < l.length) →
      idxs.mapM (pyGet l) = some (idxs.map fun i => l.getD i.toNat d)
  | [], _ => rfl
  | i :: idxs, h => by
    have hi := h i (List.mem_cons_self _ _)
    rw [List.mapM_cons, pyGet_inrange l hi.1 hi.2 d,
      mapM_pyGet l d idxs (fun j hj => h j (List.mem_cons_of_mem _ hj))]
    rfl

theorem getD_map_of_lt {α β : Type*} (f : α → β) (l : List α) {k : ℕ} (h : k < l.length)
    (d : α) (d' : β) : (l.map f).getD k d' = f (l.getD k d) := by
  rw [List.getD_eq_getElem _ _ (by rw [List.length_map]; omega), List.getElem_map,
    ← List.getD_eq_getElem _ d h]

theorem map_getD_range {α : Type*} (l : List α) (d : α) :
    (List.range l.length).map (fun k => l.getD k d) = l := by
  apply List.ext_getElem
  · simp
  · intro i h1 h2
    simp only [List.getElem_map, List.getElem_range]
    rw [List.getD_eq_getElem _ _ h2]

/-- The simplified point list: the input points at the retained indices. -/
def dpGather (points : List (ℝ × ℝ)) (ε : ℝ) : List (ℝ × ℝ) :=
  (dpIndices points ε).map fun i => points.getD i.toNat (0, 0)

/-- For a nonempty input, one full pass succeeds and returns exactly the
gathered retained points. -/
theorem douglasPeuckerIterative_eq_gather (points : List (ℝ × ℝ)) (ε : ℝ)
    (hn : 1 ≤ points.length) :
    douglasPeuckerIterative points ε = some (dpGather points ε) := by
  unfold douglasPeuckerIterative dpGather
  exact mapM_pyGet points (0, 0) (dpIndices points ε)
    (fun i hi => by
      have := dpIndices_mem_bounds hn hi
      omega)

theorem length_dpGather (points : List (ℝ × ℝ)) (ε : ℝ) :
    (dpGather points ε).length = (dpIndices points ε).length := by
  unfold dpGather
  rw [List.length_map]

theorem dpGather_getD (points : List (ℝ × ℝ)) (ε : ℝ) {k : ℕ}
    (hk : k < (dpIndices points ε).length) :
    (dpGather points ε).getD k (0, 0) =
      points.getD ((dpIndices points ε).getD k 0).toNat (0, 0) := by
  unfold dpGather
  rw [getD_map_of_lt _ _ hk 0 (0, 0)]

/-! ### Re-running the pass on the gathered points

The second Douglas-Peucker pass over the gathered key points visits, range
for range, the image of the first pass's recursion tree: both runs use the
same chords and the same distances, and the first maximal interior point of a
visited range is itself a retained point. -/

theorem dpRecSet_gather_correspondence (points : List (ℝ × ℝ)) (ε : ℝ)
    (hn : 2 ≤ points.length) :
    ∀ (gap a b : ℕ), b - a = gap → a < b → b < (dpIndices points ε).length →
      (∀ x : ℤ, (x ∈ dpIndices points ε ∧ (dpIndices points ε).getD a 0 < x ∧
          x < (dpIndices points ε).getD b 0) ↔
        x ∈ dpRecSet points ε ((dpIndices points ε).getD a 0)
          ((dpIndices points ε).getD b 0)) →
      ∀ k : ℤ, k ∈ dpRecSet (dpGather points ε) ε a b ↔
        ((a : ℤ) < k ∧ k < (b : ℤ) ∧
          (dpIndices points ε).getD k.toNat 0 ∈
            dpRecSet points ε ((dpIndices points ε).getD a 0)
              ((dpIndices points ε).getD b 0)) := by
  intro gap
  induction gap using Nat.strong_induction_on with
  | _ gap ih =>
    intro a b hgap hab hb H1 k
    have ha : a < (dpIndices points ε).length := lt_trans hab hb
    have humem : (dpIndices points ε).getD a 0 ∈ dpIndices points ε :=
      getD_mem_of_lt _ a 0 ha
    have hvmem : (dpIndices points ε).getD b 0 ∈ dpIndices points ε :=
      getD_mem_of_lt _ b 0 hb
    have hubounds := dpIndices_mem_bounds (by omega) humem
    have hvbounds := dpIndices_mem_bounds (by omega) hvmem
    have huv : (dpIndices points ε).getD a 0 < (dpIndices points ε).getD b 0 :=
      dpIndices_getD_strictMono points ε hab hb
    match hsplit : dpSplit points ε ((dpIndices points ε).getD a 0)
        ((dpIndices points ε).getD b 0) with
    | none =>
      have hrec0 : dpRecSet points ε ((dpIndices points ε).getD a 0)
          ((dpIndices points ε).getD b 0) = ∅ := dpRecSet_eq_none hsplit
      have hb1 : b = a + 1 := by
        by_contra hne
        have hab1 : a + 1 < b := by omega
        have hx : (dpIndices points ε).getD (a + 1) 0 ∈ dpIndices points ε :=
          getD_mem_of_lt _ (a + 1) 0 (by omega)
        have h1 := dpIndices_getD_strictMono points ε (show a < a + 1 by omega)
          (show a + 1 < (dpIndices points ε).length by omega)
        have h2 := dpIndices_getD_strictMono points ε hab1 hb
        have := (H1 ((dpIndices points ε).getD (a + 1) 0)).mp ⟨hx, h1, h2⟩
        rw [hrec0] at this
        simp at this
      have hq0 : dpRecSet (dpGather points ε) ε a b = ∅ :=
        dpRecSet_eq_none (dpSplit_le_one (by push_cast; omega))
      rw [hq0, hrec0]
      subst hb1
      simp
    | some i =>
      obtain ⟨hi1, hi2, hi3⟩ := dpSplit_bounds hsplit
      have hirec : i ∈ dpRecSet points ε ((dpIndices points ε).getD a 0)
          ((dpIndices points ε).getD b 0) := by
        rw [dpRecSet_eq_some hsplit]
        exact Finset.mem_insert_self _ _
      have hiL := (H1 i).mpr hirec
      obtain ⟨c, hc, hcval⟩ := dpIndices_exists_getD hiL.1
      have hac : a < c := by
        have := (dpIndices_getD_mono_iff points ε ha hc).mp (by rw [hcval]; exact hiL.2.1)
        omega
      have hcb : c < b := by
        have := (dpIndices_getD_mono_iff points ε hc hb).mp (by rw [hcval]; exact hiL.2.2)
        omega
      -- the original split in its in-range normal form
      have hun : (0 : ℤ) ≤ (dpIndices points ε).getD a 0 := hubounds.1
      have hvn : (dpIndices points ε).getD b 0 < (points.length : ℤ) := by omega
      have huv2 : (dpIndices points ε).getD a 0 + 2 ≤ (dpIndices points ε).getD b 0 := by
        omega
      obtain ⟨hDlen, hDget⟩ := dpSplitDistances_inrange points hun huv2 hvn
      have horig := dpSplit_inrange points ε hun huv2 hvn
      rw [hsplit] at horig
      by_cases hcond : ε < listMax (dpSplitDistances points ((dpIndices points ε).getD a 0)
          ((dpIndices points ε).getD b 0))
      swap
      · rw [if_neg hcond] at horig
        exact absurd horig.symm (by simp)
      rw [if_pos hcond] at horig
      have hiarg : (argmaxList (dpSplitDistances points ((dpIndices points ε).getD a 0)
          ((dpIndices points ε).getD b 0)) : ℤ) + (dpIndices points ε).getD a 0 + 1 = i := by
        have := Option.some.inj horig
        omega
      have hDne : dpSplitDistances points ((dpIndices points ε).getD a 0)
          ((dpIndices points ε).getD b 0) ≠ [] := by
        intro h0
        have hlen0 := hDlen
        rw [h0] at hlen0
        simp only [List.length_nil] at hlen0
        omega
      obtain ⟨hAlt, hAval, hAfirst, hAbound⟩ := argmax_first_max hDne
      -- the gathered-run split parameters are in range
      have hqa : (0 : ℤ) ≤ (a : ℤ) := by positivity
      have hqab : (a : ℤ) + 2 ≤ (b : ℤ) := by push_cast; omega
      have hqb : (b : ℤ) < ((dpGather points ε).length : ℤ) := by
        rw [length_dpGather]
        push_cast
        omega
      obtain ⟨hQlen, hQget⟩ := dpSplitDistances_inrange (dpGather points ε) hqa hqab hqb
      -- each gathered interior distance is an original interior distance
      have hQval : ∀ k' : ℕ, k' < ((b : ℤ) - (a : ℤ) - 1).toNat →
          (dpSplitDistances (dpGather points ε) a b).getD k' 0 =
            pointLineDist (points.getD ((dpIndices points ε).getD a 0).toNat (0, 0))
              (points.getD ((dpIndices points ε).getD b 0).toNat (0, 0))
              (points.getD ((dpIndices points ε).getD (a + 1 + k') 0).toNat (0, 0)) := by
        intro k' hk'
        rw [hQget k' hk']
        rw [Int.toNat_natCast, Int.toNat_natCast]
        rw [dpGather_getD points ε (by omega), dpGather_getD points ε (by omega),
          dpGather_getD points ε (by omega : a + 1 + k' < (dpIndices points ε).length)]
      -- each original interior distance, addressed by its curve index
      have hDval : ∀ w : ℤ, (dpIndices points ε).getD a 0 < w →
          w < (dpIndices points ε).getD b 0 →
          (dpSplitDistances points ((dpIndices points ε).getD a 0)
            ((dpIndices points ε).getD b 0)).getD
              (w - (dpIndices points ε).getD a 0 - 1).toNat 0 =
            pointLineDist (points.getD ((dpIndices points ε).getD a 0).toNat (0, 0))
              (points.getD ((dpIndices points ε).getD b 0).toNat (0, 0))
              (points.getD w.toNat (0, 0)) := by
        intro w hw1 hw2
        rw [hDget _ (by omega)]
        congr 2
        omega
      -- the value at gathered position c is the original maximum
      have hatC : (dpSplitDistances (dpGather points ε) a b).getD (c - a - 1) 0 =
          listMax (dpSplitDistances points ((dpIndices points ε).getD a 0)
            ((dpIndices points ε).getD b 0)) := by
        rw [hQval (c - a - 1) (by push_cast; omega)]
        rw [show a + 1 + (c - a - 1) = c from by omega, hcval]
        rw [← hDval i hiL.2.1 hiL.2.2]
        rw [show (i - (dpIndices points ε).getD a 0 - 1).toNat =
          argmaxList (dpSplitDistances points ((dpIndices points ε).getD a 0)
            ((dpIndices points ε).getD b 0)) from by omega]
        exact hAval
      -- all gathered distances are bounded by the original maximum
      have hQbound : ∀ k' : ℕ,
          k' < (dpSplitDistances (dpGather points ε) a b).length →
          (dpSplitDistances (dpGather points ε) a b).getD k' 0 ≤
            listMax (dpSplitDistances points ((dpIndices points ε).getD a 0)
              ((dpIndices points ε).getD b 0)) := by
        intro k' hk'
        rw [hQlen] at hk'
        have hwmem : (dpIndices points ε).getD (a + 1 + k') 0 ∈ dpIndices points ε :=
          getD_mem_of_lt _ _ 0 (by omega)
        have hw1 : (dpIndices points ε).getD a 0 < (dpIndices points ε).getD (a + 1 + k') 0 :=
          dpIndices_getD_strictMono points ε (by omega) (by omega)
        have hw2 : (dpIndices points ε).getD (a + 1 + k') 0 < (dpIndices points ε).getD b 0 :=
          dpIndices_getD_strictMono points ε (by omega) hb
        rw [hQval k' hk', ← hDval _ hw1 hw2]
        refine hAbound _ ?_
        rw [hDlen]
        omega
      -- gathered positions before c hold strictly smaller values
      have hQfirst : ∀ k' : ℕ, k' < c - a - 1 →
          (dpSplitDistances (dpGather points ε) a b).getD k' 0 <
            listMax (dpSplitDistances points ((dpIndices points ε).getD a 0)
              ((dpIndices points ε).getD b 0)) := by
        intro k' hk'
        have hw1 : (dpIndices points ε).getD a 0 < (dpIndices points ε).getD (a + 1 + k') 0 :=
          dpIndices_getD_strictMono points ε (by omega) (by omega)
        have hwi : (dpIndices points ε).getD (a + 1 + k') 0 < i := by
          rw [← hcval]
          exact dpIndices_getD_strictMono points ε (by omega) hc
        have hw2 : (dpIndices points ε).getD (a + 1 + k') 0 < (dpIndices points ε).getD b 0 :=
          by omega
        rw [hQval k' (by push_cast; omega), ← hDval _ hw1 hw2]
        refine hAfirst _ ?_
        omega
      -- hence max and argmax of the gathered range
      have hMQ : listMax (dpSplitDistances (dpGather points ε) a b) =
          listMax (dpSplitDistances points ((dpIndices points ε).getD a 0)
            ((dpIndices points ε).getD b 0)) :=
        listMax_eq_of (c := c - a - 1) (by rw [hQlen]; push_cast; omega) hatC hQbound
      have hAQ : argmaxList (dpSplitDistances (dpGather points ε) a b) = c - a - 1 :=
        argmax_eq_first (by rw [hQlen]; push_cast; omega)
          (by rw [hMQ]; exact hatC)
          (by intro j hj; rw [hMQ]; exact hQfirst j hj)
      have hqsplit : dpSplit (dpGather points ε) ε a b = some c := by
        rw [dpSplit_inrange _ ε hqa hqab hqb, if_pos (by rw [hMQ]; exact hcond)]
        rw [hAQ]
        congr 1
        push_cast
        omega
      -- children premises
      have H1L : ∀ x : ℤ, (x ∈ dpIndices points ε ∧ (dpIndices points ε).getD a 0 < x ∧
          x < (dpIndices points ε).getD c 0) ↔
          x ∈ dpRecSet points ε ((dpIndices points ε).getD a 0)
            ((dpIndices points ε).getD c 0) := by
        intro x
        rw [hcval]
        constructor
        · rintro ⟨hxL, hx1, hx2⟩
          have hx3 : x < (dpIndices points ε).getD b 0 := by omega
          have hx := (H1 x).mp ⟨hxL, hx1, hx3⟩
          rw [dpRecSet_eq_some hsplit] at hx
          simp only [Finset.mem_insert, Finset.mem_union] at hx
          rcases hx with rfl | hx | hx
          · omega
          · exact hx
          · have := dpRecSet_mem_between hx
            omega
        · intro hx
          have hxuv : x ∈ dpRecSet points ε ((dpIndices points ε).getD a 0)
              ((dpIndices points ε).getD b 0) := by
            rw [dpRecSet_eq_some hsplit]
            simp only [Finset.mem_insert, Finset.mem_union]
            exact Or.inr (Or.inl hx)
          have hxL := (H1 x).mpr hxuv
          have := dpRecSet_mem_between hx
          exact ⟨hxL.1, this.1, this.2⟩
      have H1R : ∀ x : ℤ, (x ∈ dpIndices points ε ∧ (dpIndices points ε).getD c 0 < x ∧
          x < (dpIndices points ε).getD b 0) ↔
          x ∈ dpRecSet points ε ((dpIndices points ε).getD c 0)
            ((dpIndices points ε).getD b 0) := by
        intro x
        rw [hcval]
        constructor
        · rintro ⟨hxL, hx1, hx2⟩
          have hx0 : (dpIndices points ε).getD a 0 < x := by omega
          have hx := (H1 x).mp ⟨hxL, hx0, hx2⟩
          rw [dpRecSet_eq_some hsplit] at hx
          simp only [Finset.mem_insert, Finset.mem_union] at hx
          rcases hx with rfl | hx | hx
          · omega
          · have := dpRecSet_mem_between hx
            omega
          · exact hx
        · intro hx
          have hxuv : x ∈ dpRecSet points ε ((dpIndices points ε).getD a 0)
              ((dpIndices points ε).getD b 0) := by
            rw [dpRecSet_eq_some hsplit]
            simp only [Finset.mem_insert, Finset.mem_union]
            exact Or.inr (Or.inr hx)
          have hxL := (H1 x).mpr hxuv
          have := dpRecSet_mem_between hx
          exact ⟨hxL.1, this.1, this.2⟩
      have IHL := ih (c - a) (by omega) a c rfl hac (by omega) H1L
      have IHR := ih (b - c) (by omega) c b rfl hcb hb H1R
      -- assemble the iff
      rw [dpRecSet_eq_some hqsplit, dpRecSet_eq_some hsplit]
      simp only [Finset.mem_insert, Finset.mem_union]
      constructor
      · rintro (rfl | hk | hk)
        · -- k is the split position itself
          refine ⟨by push_cast; omega, by push_cast; omega, ?_⟩
          rw [Int.toNat_natCast, hcval]
          exact Or.inl rfl
        · -- k comes from the left subtree
          obtain ⟨hk1, hk2, hk3⟩ := (IHL k).mp hk
          refine ⟨hk1, by push_cast at hk2 ⊢; omega, ?_⟩
          rw [hcval] at hk3
          exact Or.inr (Or.inl hk3)
        · -- k comes from the right subtree
          obtain ⟨hk1, hk2, hk3⟩ := (IHR k).mp hk
          refine ⟨by push_cast at hk1 ⊢; omega, hk2, ?_⟩
          rw [hcval] at hk3
          exact Or.inr (Or.inr hk3)
      · rintro ⟨hk1, hk2, rfl | hk3 | hk3⟩
        · -- the value at position k.toNat is i, so k is the split position
          left
          have hkc : k.toNat = c := by
            by_contra hne
            rcases Nat.lt_or_ge k.toNat c with hlt | hge
            · have := dpIndices_getD_strictMono points ε hlt hc
              rw [hcval] at this
              omega
            · have hgt : c < k.toNat := by omega
              have := dpIndices_getD_strictMono points ε hgt (by omega)
              rw [hcval] at this
              omega
          omega
        · -- the value lies in the left original subtree
          right; left
          refine (IHL k).mpr ⟨hk1, ?_, by rw [hcval]; exact hk3⟩
          have hbet := dpRecSet_mem_between hk3
          have hkc : k.toNat < c := by
            by_contra hge
            push_neg at hge
            rcases Nat.eq_or_lt_of_le hge with heq | hlt
            · rw [heq] at hcval
              rw [hcval] at hbet
              omega
            · have := dpIndices_getD_strictMono points ε hlt (by omega)
              rw [hcval] at this
              omega
          push_cast
          omega
        · -- the value lies in the right original subtree
          right; right
          refine (IHR k).mpr ⟨?_, hk2, by rw [hcval]; exact hk3⟩
          have hbet := dpRecSet_mem_between hk3
          have hkc : c < k.toNat := by
            by_contra hge
            push_neg at hge
            rcases Nat.eq_or_lt_of_le hge with heq | hlt
            · rw [← heq] at hcval
              rw [hcval] at hbet
              omega
            · have := dpIndices_getD_strictMono points ε hlt hc
              rw [hcval] at this
              omega
          push_cast
          omega

theorem dp_empty (ε : ℝ) : douglasPeuckerIterative ([] : List (ℝ × ℝ)) ε = none := by
  have hloop : dpLoop ([] : List (ℝ × ℝ)) ε [(0, -1)] [0, -1] = [0, -1] := by
    rw [dpLoop_cons_none _ _ (dpSplit_le_one (by norm_num)), dpLoop_nil]
  have hidx : dpIndices ([] : List (ℝ × ℝ)) ε = [-1, 0] := by
    unfold dpIndices
    rw [show ((List.length ([] : List (ℝ × ℝ)) : ℤ) - 1) = -1 from by norm_num, hloop]
    decide
  unfold douglasPeuckerIterative
  rw [hidx]
  rfl

theorem dp_one (p : ℝ × ℝ) (ε : ℝ) : douglasPeuckerIterative [p] ε = some [p] := by
  have hloop : dpLoop [p] ε [(0, 0)] [0, 0] = [0, 0] := by
    rw [dpLoop_cons_none _ _ (dpSplit_le_one (by norm_num)), dpLoop_nil]
  have hidx : dpIndices [p] ε = [0] := by
    unfold dpIndices
    rw [show ((List.length [p] : ℤ) - 1) = 0 from by norm_num, hloop]
    decide
  unfold douglasPeuckerIterative
  rw [hidx]
  rfl

/-- Re-running the pass on the gathered key points retains every position:
the second pass's root recursion covers exactly the interior positions. -/
theorem dp_gather_idempotent (points : List (ℝ × ℝ)) (ε : ℝ) (hn : 2 ≤ points.length) :
    douglasPeuckerIterative (dpGather points ε) ε = some (dpGather points ε) := by
  have hm2 : 2 ≤ (dpIndices points ε).length := dpIndices_length_ge_two hn
  have hcast : (((dpIndices points ε).length - 1 : ℕ) : ℤ) =
      ((dpIndices points ε).length : ℤ) - 1 := by omega
  have H1 : ∀ x : ℤ, (x ∈ dpIndices points ε ∧ (dpIndices points ε).getD 0 0 < x ∧
      x < (dpIndices points ε).getD ((dpIndices points ε).length - 1) 0) ↔
      x ∈ dpRecSet points ε ((dpIndices points ε).getD 0 0)
        ((dpIndices points ε).getD ((dpIndices points ε).length - 1) 0) := by
    intro x
    rw [dpIndices_getD_head hn, dpIndices_getD_last hn]
    constructor
    · rintro ⟨hxL, hx1, hx2⟩
      rw [mem_dpIndices] at hxL
      simp only [Finset.mem_union, Finset.mem_insert, Finset.mem_singleton] at hxL
      rcases hxL with (rfl | rfl) | hxL
      · omega
      · omega
      · exact hxL
    · intro hx
      have hbet := dpRecSet_mem_between hx
      refine ⟨?_, hbet.1, hbet.2⟩
      rw [mem_dpIndices]
      simp only [Finset.mem_union]
      exact Or.inr hx
  have corr := dpRecSet_gather_correspondence points ε hn ((dpIndices points ε).length - 1)
    0 ((dpIndices points ε).length - 1) rfl (by omega) (by omega) H1
  have hrec_eq : ∀ k : ℤ,
      k ∈ dpRecSet (dpGather points ε) ε ((0 : ℕ) : ℤ)
        (((dpIndices points ε).length - 1 : ℕ) : ℤ) ↔
      0 < k ∧ k < ((dpIndices points ε).length : ℤ) - 1 := by
    intro k
    constructor
    · intro h
      obtain ⟨h1, h2, _⟩ := (corr k).mp h
      refine ⟨by exact_mod_cast h1, by omega⟩
    · rintro ⟨h1, h2⟩
      refine (corr k).mpr ⟨by exact_mod_cast h1, by omega, ?_⟩
      have hklt : k.toNat < (dpIndices points ε).length := by omega
      have hmem : (dpIndices points ε).getD k.toNat 0 ∈ dpIndices points ε :=
        getD_mem_of_lt _ _ 0 hklt
      have hlt1 : (dpIndices points ε).getD 0 0 < (dpIndices points ε).getD k.toNat 0 :=
        dpIndices_getD_strictMono points ε (by omega) hklt
      have hlt2 : (dpIndices points ε).getD k.toNat 0 <
          (dpIndices points ε).getD ((dpIndices points ε).length - 1) 0 :=
        dpIndices_getD_strictMono points ε (by omega) (by omega)
      exact (H1 _).mp ⟨hmem, hlt1, hlt2⟩
  -- the retained index set of the second pass is the whole position range
  have hLQfinset : (dpIndices (dpGather points ε) ε).toFinset =
      Finset.Icc (0 : ℤ) (((dpIndices points ε).length : ℤ) - 1) := by
    rw [dpIndices_toFinset, length_dpGather]
    ext x
    simp only [Finset.mem_union, Finset.mem_insert, Finset.mem_singleton, Finset.mem_Icc]
    have hx := hrec_eq x
    rw [show (((dpIndices points ε).length - 1 : ℕ) : ℤ) =
      ((dpIndices points ε).length : ℤ) - 1 from hcast] at hx
    rw [show ((0 : ℕ) : ℤ) = (0 : ℤ) from rfl] at hx
    constructor
    · rintro ((rfl | rfl) | hmem)
      · omega
      · omega
      · have := hx.mp hmem
        omega
    · intro hxb
      by_cases h0 : x = 0
      · exact Or.inl (Or.inl h0)
      by_cases hlast : x = ((dpIndices points ε).length : ℤ) - 1
      · exact Or.inl (Or.inr hlast)
      · exact Or.inr (hx.mpr ⟨by omega, by omega⟩)
  have hLQ : dpIndices (dpGather points ε) ε =
      List.map (fun (j : ℕ) => (j : ℤ)) (List.range (dpIndices points ε).length) := by
    refine List.eq_of_perm_of_sorted ?_ (sorted_dpIndices _ _) ?_
    · apply List.perm_of_nodup_nodup_toFinset_eq (nodup_dpIndices _ _)
      · refine List.pairwise_map.mpr ?_
        refine (List.pairwise_lt_range _).imp ?_
        intro a b h hcon
        rw [Int.natCast_inj] at hcon
        omega
      · rw [hLQfinset]
        ext x
        simp only [List.mem_toFinset, List.mem_map, List.mem_range, Finset.mem_Icc]
        constructor
        · intro hxb
          exact ⟨x.toNat, by omega, by omega⟩
        · rintro ⟨j, hj, rfl⟩
          omega
    · show List.Sorted _ _
      refine List.pairwise_map.mpr ?_
      refine (List.pairwise_lt_range _).imp ?_
      intro a b h
      exact le_of_lt (by exact_mod_cast h)
  have hgather2 : dpGather (dpGather points ε) ε = dpGather points ε := by
    show (dpIndices (dpGather points ε) ε).map
      (fun i => (dpGather points ε).getD i.toNat (0, 0)) = dpGather points ε
    rw [hLQ, List.map_map]
    have hfun : ((fun i : ℤ => (dpGather points ε).getD i.toNat (0, 0)) ∘
        fun (j : ℕ) => (j : ℤ)) = fun j : ℕ => (dpGather points ε).getD j (0, 0) := by
      funext j
      simp only [Function.comp_apply, Int.toNat_natCast]
    rw [hfun, show (dpIndices points ε).length = (dpGather points ε).length from
      (length_dpGather points ε).symm, map_getD_range]
  rw [douglasPeuckerIterative_eq_gather _ _ (by rw [length_dpGather]; omega), hgather2]

/-- One pass of the engine is idempotent at the level of key-point lists. -/
theorem dp_idempotent (points : List (ℝ × ℝ)) (ε : ℝ) (kp : List (ℝ × ℝ))
    (h : douglasPeuckerIterative points ε = some kp) :
    douglasPeuckerIterative kp ε = some kp := by
  rcases Nat.lt_or_ge points.length 2 with hn | hn
  · rcases Nat.lt_or_ge points.length 1 with h0 | h1
    · have : points = [] := List.length_eq_zero.mp (by omega)
      rw [this, dp_empty] at h
      exact absurd h (by simp)
    · have : points.length = 1 := by omega
      obtain ⟨p, rfl⟩ := List.length_eq_one.mp this
      rw [dp_one] at h
      have hkp : kp = [p] := (Option.some.inj h).symm
      rw [hkp]
      exact dp_one p ε
  · have hg := douglasPeuckerIterative_eq_gather points ε (by omega)
    rw [hg] at h
    have hkp : kp = dpGather points ε := (Option.some.inj h).symm
    rw [hkp]
    exact dp_gather_idempotent points ε hn

/-- C7: simplifying an already-simplified curve again at the same tolerance
returns it unchanged: `simplify(simplify(curve, t), t) = simplify(curve, t)`. -/
theorem C7_simplify_idempotent (d : CurveData) (t : ℝ) (q : CurveData)
    (h : simplifyWithEpsilon d t = some q) : simplifyWithEpsilon q t = some q := by
  unfold simplifyWithEpsilon at h ⊢
  match hdp : douglasPeuckerIterative d.points t with
  | none =>
    rw [hdp] at h
    exact absurd h (by simp)
  | some kp =>
    rw [hdp] at h
    simp only [Option.map_some'] at h
    have hq := Option.some.inj h
    have hqpts : q.points = kp := by
      rw [← hq]
      show (kp.map Prod.fst).zip (kp.map Prod.snd) = kp
      rw [← List.unzip_fst, ← List.unzip_snd, List.zip_unzip]
    rw [hqpts, dp_idempotent d.points t kp hdp, Option.map_some', hq]

/-! ### Similarity scorer (`calculate_ncc`) -/

/-- Model of `np.mean` (population mean; junk value 0 for the empty vector). -/
def npMean (l : List ℝ) : ℝ := l.sum / l.length

/-- Model of `np.std` (population standard deviation). -/
def npStd (l : List ℝ) : ℝ := Real.sqrt (npMean (l.map fun v => (v - npMean l) ^ 2))

/-- The call `scipy.interpolate.interp1d` first sorts the sample points by x
(`assume_sorted=False` is the default). -/
def sortPairsByX (l : List (ℝ × ℝ)) : List (ℝ × ℝ) :=
  List.insertionSort (fun p q => p.1 ≤ q.1) l

/-- Piecewise-linear interpolation over x-sorted sample points, with linear
extrapolation from the edge segments (`fill_value="extrapolate"`). -/
def interpLinear : List (ℝ × ℝ) → ℝ → ℝ
  | [], _ => 0
  | [p], _ => p.2
  | p :: q :: rest, t =>
    if t ≤ q.1 ∨ rest = [] then p.2 + (q.2 - p.2) / (q.1 - p.1) * (t - p.1)
    else interpLinear (q :: rest) t

/-- Model of `interp1d(curve2.x, curve2.y, fill_value="extrapolate")` applied to one
abscissa. -/
def scipyInterp1d (pts : List (ℝ × ℝ)) (t : ℝ) : ℝ := interpLinear (sortPairsByX pts) t

/-- Model of `CurveSimplifier.calculate_ncc`: resample `curve2` at `curve1.x`, then
Pearson-style normalized cross-correlation; `scipy.interpolate.interp1d`
raises unless the sample curve has at least 2 points (spec §4.3/§7), modelled
as `none`; zero standard deviation on either side yields 0. -/
def calculateNcc (curve1 curve2 : CurveData) : Option ℝ :=
  if curve2.x.length < 2 then none
  else
    let y2interp := curve1.x.map (scipyInterp1d curve2.points)
    let meanY1 := npMean curve1.y
    let meanY2 := npMean y2interp
    let stdY1 := npStd curve1.y
    let stdY2 := npStd y2interp
    if stdY1 = 0 ∨ stdY2 = 0 then some 0
    else some ((List.zipWith (fun a b => (a - meanY1) * (b - meanY2)) curve1.y y2interp).sum /
      (stdY1 * stdY2 * curve1.y.length))

/-! ### Adaptive tolerance search (`_find_optimal_epsilon`) -/

/-- Model of `evaluate_epsilon`: simplify at `eps` and score the result against the
original curve (either step may raise, hence `Option`). -/
def evaluateEpsilon (data : CurveData) (eps : ℝ) : Option ℝ :=
  (simplifyWithEpsilon data eps).bind fun simplified => calculateNcc data simplified

/-- The `while stack:` loop of `_find_optimal_epsilon`, over an arbitrary
evaluator `f`.  Stack entries are `(low, high, depth)`; `best`/`bestDiff`
mirror `best_epsilon`/`best_diff` (initially `float('inf')`, modelled as
`⊤ : WithTop ℝ`).  A `none` from the evaluator is a propagated exception. -/
def searchLoop (f : ℝ → Option ℝ) (target tol : ℝ) (maxIter : ℕ) :
    List (ℝ × ℝ × ℕ) → ℝ → WithTop ℝ → Option ℝ
  | [], best, _ => some best
  | (low, high, depth) :: stack, best, bestDiff =>
    if maxIter ≤ depth ∨ high - low < tol then
      searchLoop f target tol maxIter stack best bestDiff
    else
      let mid := (low + high) / 2
      match f mid with
      | none => none
      | some ncc =>
        if |target - ncc| < tol then some mid
        else
          let best' := if ((|target - ncc| : ℝ) : WithTop ℝ) < bestDiff then mid else best
          let bestDiff' := if ((|target - ncc| : ℝ) : WithTop ℝ) < bestDiff
            then ((|target - ncc| : ℝ) : WithTop ℝ) else bestDiff
          match f ((low + mid) / 2) with
          | none => none
          | some nccLeft =>
            match f ((mid + high) / 2) with
            | none => none
            | some nccRight =>
              if |nccLeft - target| < |nccRight - target| then
                searchLoop f target tol maxIter ((low, mid, depth + 1) :: stack) best' bestDiff'
              else
                searchLoop f target tol maxIter ((mid, high, depth + 1) :: stack) best' bestDiff'
termination_by st _ _ => (st.map fun p => maxIter + 1 - p.2.2).sum + st.length
decreasing_by
  · simp only [List.map_cons, List.sum_cons, List.length_cons]
    omega
  · simp only [List.map_cons, List.sum_cons, List.length_cons]
    omega
  · simp only [List.map_cons, List.sum_cons, List.length_cons]
    omega

/-- Model of `CurveSimplifier._find_optimal_epsilon` with explicit keyword
parameters. -/
def findOptimalEpsilonFull (targetNcc : ℝ) (data : CurveData)
    (initialEpsilon : ℝ) (maxIterations : ℕ) (nccTolerance : ℝ) : Option ℝ :=
  searchLoop (evaluateEpsilon data) targetNcc nccTolerance maxIterations
    [(1 / 1000000, 1, 0)] initialEpsilon ⊤

/-- Model of `CurveSimplifier._find_optimal_epsilon` at its default parameters
(`initial_epsilon=1.0`, `max_iterations=50`, `ncc_tolerance=1e-4`), as
invoked by `simplify`. -/
def findOptimalEpsilon (targetNcc : ℝ) (data : CurveData) : Option ℝ :=
  findOptimalEpsilonFull targetNcc data 1 50 (1 / 10000)

/-! ### Simplifier state (`CurveSimplifier`) -/

/-- The mutable state of a `CurveSimplifier` instance: the configured
`target_ncc` and the cached `epsilon` (`None` after `__init__`). -/
structure SimplifierState where
  targetNcc : ℝ
  epsilon : Option ℝ

/-- Model of `CurveSimplifier.__init__(target_ncc)`. -/
def SimplifierState.init (targetNcc : ℝ) : SimplifierState := ⟨targetNcc, none⟩

/-- Model of `CurveSimplifier.simplify`, with the instance state passed explicitly:
returns the produced curve (or a raised exception as `none`) together with
the state after the call.  When the search itself raises, the exception
propagates before `self.epsilon` is assigned. -/
def simplify (st : SimplifierState) (data : CurveData) :
    Option CurveData × SimplifierState :=
  match st.epsilon with
  | some eps => (simplifyWithEpsilon data eps, st)
  | none =>
    match findOptimalEpsilon st.targetNcc data with
    | none => (none, st)
    | some eps => (simplifyWithEpsilon data eps, ⟨st.targetNcc, some eps⟩)

/-! ### Unfolding lemmas for the search loop -/

theorem searchLoop_nil (f : ℝ → Option ℝ) (t tol : ℝ) (N : ℕ) (best : ℝ) (bd : WithTop ℝ) :
    searchLoop f t tol N [] best bd = some best := by
  rw [searchLoop]

theorem searchLoop_guard {f : ℝ → Option ℝ} {t tol : ℝ} {N : ℕ} {low high : ℝ} {depth : ℕ}
    (stack : List (ℝ × ℝ × ℕ)) (best : ℝ) (bd : WithTop ℝ)
    (h : N ≤ depth ∨ high - low < tol) :
    searchLoop f t tol N ((low, high, depth) :: stack) best bd =
      searchLoop f t tol N stack best bd := by
  rw [searchLoop, if_pos h]

theorem searchLoop_failmid {f : ℝ → Option ℝ} {t tol : ℝ} {N : ℕ} {low high : ℝ} {depth : ℕ}
    (stack : List (ℝ × ℝ × ℕ)) (best : ℝ) (bd : WithTop ℝ)
    (hg : ¬(N ≤ depth ∨ high - low < tol)) (hm : f ((low + high) / 2) = none) :
    searchLoop f t tol N ((low, high, depth) :: stack) best bd = none := by
  rw [searchLoop, if_neg hg]
  dsimp only
  rw [hm]

theorem searchLoop_accept {f : ℝ → Option ℝ} {t tol : ℝ} {N : ℕ} {low high : ℝ} {depth : ℕ}
    {v : ℝ} (stack : List (ℝ × ℝ × ℕ)) (best : ℝ) (bd : WithTop ℝ)
    (hg : ¬(N ≤ depth ∨ high - low < tol)) (hm : f ((low + high) / 2) = some v)
    (hacc : |t - v| < tol) :
    searchLoop f t tol N ((low, high, depth) :: stack) best bd = some ((low + high) / 2) := by
  rw [searchLoop, if_neg hg]
  dsimp only
  rw [hm]
  dsimp only
  rw [if_pos hacc]

theorem searchLoop_failleft {f : ℝ → Option ℝ} {t tol : ℝ} {N : ℕ} {low high : ℝ} {depth : ℕ}
    {v : ℝ} (stack : List (ℝ × ℝ × ℕ)) (best : ℝ) (bd : WithTop ℝ)
    (hg : ¬(N ≤ depth ∨ high - low < tol)) (hm : f ((low + high) / 2) = some v)
    (hnacc : ¬|t - v| < tol) (hl : f ((low + (low + high) / 2) / 2) = none) :
    searchLoop f t tol N ((low, high, depth) :: stack) best bd = none := by
  rw [searchLoop, if_neg hg]
  dsimp only
  rw [hm]
  dsimp only
  rw [if_neg hnacc, hl]

theorem searchLoop_failright {f : ℝ → Option ℝ} {t tol : ℝ} {N : ℕ} {low high : ℝ} {depth : ℕ}
    {v vl : ℝ} (stack : List (ℝ × ℝ × ℕ)) (best : ℝ) (bd : WithTop ℝ)
    (hg : ¬(N ≤ depth ∨ high - low < tol)) (hm : f ((low + high) / 2) = some v)
    (hnacc : ¬|t - v| < tol) (hl : f ((low + (low + high) / 2) / 2) = some vl)
    (hr : f (((low + high) / 2 + high) / 2) = none) :
    searchLoop f t tol N ((low, high, depth) :: stack) best bd = none := by
  rw [searchLoop, if_neg hg]
  dsimp only
  rw [hm]
  dsimp only
  rw [if_neg hnacc, hl]
  dsimp only
  rw [hr]

theorem searchLoop_step {f : ℝ → Option ℝ} {t tol : ℝ} {N : ℕ} {low high : ℝ} {depth : ℕ}
    {v vl vr : ℝ} (stack : List (ℝ × ℝ × ℕ)) (best : ℝ) (bd : WithTop ℝ)
    (hg : ¬(N ≤ depth ∨ high - low < tol)) (hm : f ((low + high) / 2) = some v)
    (hnacc : ¬|t - v| < tol) (hl : f ((low + (low + high) / 2) / 2) = some vl)
    (hr : f (((low + high) / 2 + high) / 2) = some vr) :
    searchLoop f t tol N ((low, high, depth) :: stack) best bd =
      searchLoop f t tol N
        ((if |vl - t| < |vr - t| then (low, (low + high) / 2, depth + 1)
          else ((low + high) / 2, high, depth + 1)) :: stack)
        (if ((|t - v| : ℝ) : WithTop ℝ) < bd then (low + high) / 2 else best)
        (if ((|t - v| : ℝ) : WithTop ℝ) < bd then ((|t - v| : ℝ) : WithTop ℝ) else bd) := by
  rw [searchLoop, if_neg hg]
  dsimp only
  rw [hm]
  dsimp only
  rw [if_neg hnacc, hl]
  dsimp only
  rw [hr]
  dsimp only
  split <;> rfl

/-! ### Claim C5: greedy half-interval selection -/

/-- C5: in an iteration whose midpoint is not accepted, the search evaluates
the similarity at the left-quarter point `(low+mid)/2` and the right-quarter
point `(mid+high)/2` and continues with exactly one pushed half-interval:
`(low, mid)` when the left-quarter similarity is strictly closer to the
target, `(mid, high)` otherwise (ties go right); the other half is
discarded. -/
theorem C5_greedy_half_selection {f : ℝ → Option ℝ} {t tol : ℝ} {N : ℕ} {low high : ℝ}
    {depth : ℕ} {v vl vr : ℝ} (stack : List (ℝ × ℝ × ℕ)) (best : ℝ) (bd : WithTop ℝ)
    (hg : ¬(N ≤ depth ∨ high - low < tol)) (hm : f ((low + high) / 2) = some v)
    (hnacc : ¬|t - v| < tol) (hl : f ((low + (low + high) / 2) / 2) = some vl)
    (hr : f (((low + high) / 2 + high) / 2) = some vr) :
    searchLoop f t tol N ((low, high, depth) :: stack) best bd =
      searchLoop f t tol N
        ((if |vl - t| < |vr - t| then (low, (low + high) / 2, depth + 1)
          else ((low + high) / 2, high, depth + 1)) :: stack)
        (if ((|t - v| : ℝ) : WithTop ℝ) < bd then (low + high) / 2 else best)
        (if ((|t - v| : ℝ) : WithTop ℝ) < bd then ((|t - v| : ℝ) : WithTop ℝ) else bd) :=
  searchLoop_step stack best bd hg hm hnacc hl hr

theorem C5_greedy_half_selection_witness :
    (¬((50 : ℕ) ≤ 0 ∨ (1 : ℝ) - 0 < 1 / 10000)) ∧
      searchLoop (fun _ => some 0) 1 (1 / 10000) 50 [((0 : ℝ), 1, 0)] 1 ⊤ =
        searchLoop (fun _ => some 0) 1 (1 / 10000) 50
          ((if |(0 : ℝ) - 1| < |(0 : ℝ) - 1| then ((0 : ℝ), (0 + 1) / 2, 0 + 1)
            else ((0 + 1) / 2, 1, 0 + 1)) :: [])
          (if ((|(1 : ℝ) - 0| : ℝ) : WithTop ℝ) < ⊤ then (0 + 1) / 2 else 1)
          (if ((|(1 : ℝ) - 0| : ℝ) : WithTop ℝ) < ⊤ then ((|(1 : ℝ) - 0| : ℝ) : WithTop ℝ)
            else ⊤) := by
  constructor
  · norm_num
  · exact C5_greedy_half_selection [] 1 ⊤ (by norm_num) rfl (by norm_num) rfl rfl

/-! ### Instrumented mirror of the search loop

`searchRun` computes, alongside the loop's result, the list of successfully
evaluated interval midpoints in order (`trace`), the number of loop
iterations (`pops`), the number of attempted similarity evaluations
(`evals`), and the largest stack size observed at an iteration start
(`maxStack`). -/

structure SearchStats where
  result : Option ℝ
  trace : List ℝ
  pops : ℕ
  evals : ℕ
  maxStack : ℕ

def searchRun (f : ℝ → Option ℝ) (target tol : ℝ) (maxIter : ℕ) :
    List (ℝ × ℝ × ℕ) → ℝ → WithTop ℝ → SearchStats
  | [], best, _ => ⟨some best, [], 0, 0, 0⟩
  | (low, high, depth) :: stack, best, bestDiff =>
    if maxIter ≤ depth ∨ high - low < tol then
      let r := searchRun f target tol maxIter stack best bestDiff
      ⟨r.result, r.trace, r.pops + 1, r.evals, max (stack.length + 1) r.maxStack⟩
    else
      let mid := (low + high) / 2
      match f mid with
      | none => ⟨none, [], 1, 1, stack.length + 1⟩
      | some ncc =>
        if |target - ncc| < tol then ⟨some mid, [mid], 1, 1, stack.length + 1⟩
        else
          let best' := if ((|target - ncc| : ℝ) : WithTop ℝ) < bestDiff then mid else best
          let bestDiff' := if ((|target - ncc| : ℝ) : WithTop ℝ) < bestDiff
            then ((|target - ncc| : ℝ) : WithTop ℝ) else bestDiff
          match f ((low + mid) / 2) with
          | none => ⟨none, [mid], 1, 2, stack.length + 1⟩
          | some nccLeft =>
            match f ((mid + high) / 2) with
            | none => ⟨none, [mid], 1, 3, stack.length + 1⟩
            | some nccRight =>
              let next := if |nccLeft - target| < |nccRight - target|
                then (low, mid, depth + 1) else (mid, high, depth + 1)
              let r := searchRun f target tol maxIter (next :: stack) best' bestDiff'
              ⟨r.result, mid :: r.trace, r.pops + 1, r.evals + 3,
                max (stack.length + 1) r.maxStack⟩
termination_by st _ _ => (st.map fun p => maxIter + 1 - p.2.2).sum + st.length
decreasing_by
  · simp only [List.map_cons, List.sum_cons, List.length_cons]
    omega
  · simp only [List.map_cons, List.sum_cons, List.length_cons]
    split <;> simp <;> omega

theorem searchRun_nil (f : ℝ → Option ℝ) (t tol : ℝ) (N : ℕ) (best : ℝ) (bd : WithTop ℝ) :
    searchRun f t tol N [] best bd = ⟨some best, [], 0, 0, 0⟩ := by
  rw [searchRun]

theorem searchRun_guard {f : ℝ → Option ℝ} {t tol : ℝ} {N : ℕ} {low high : ℝ} {depth : ℕ}
    (stack : List (ℝ × ℝ × ℕ)) (best : ℝ) (bd : WithTop ℝ)
    (h : N ≤ depth ∨ high - low < tol) :
    searchRun f t tol N ((low, high, depth) :: stack) best bd =
      ⟨(searchRun f t tol N stack best bd).result, (searchRun f t tol N stack best bd).trace,
        (searchRun f t tol N stack best bd).pops + 1, (searchRun f t tol N stack best bd).evals,
        max (stack.length + 1) (searchRun f t tol N stack best bd).maxStack⟩ := by
  rw [searchRun, if_pos h]

theorem searchRun_failmid {f : ℝ → Option ℝ} {t tol : ℝ} {N : ℕ} {low high : ℝ} {depth : ℕ}
    (stack : List (ℝ × ℝ × ℕ)) (best : ℝ) (bd : WithTop ℝ)
    (hg : ¬(N ≤ depth ∨ high - low < tol)) (hm : f ((low + high) / 2) = none) :
    searchRun f t tol N ((low, high, depth) :: stack) best bd =
      ⟨none, [], 1, 1, stack.length + 1⟩ := by
  rw [searchRun, if_neg hg]
  dsimp only
  rw [hm]

theorem searchRun_accept {f : ℝ → Option ℝ} {t tol : ℝ} {N : ℕ} {low high : ℝ} {depth : ℕ}
    {v : ℝ} (stack : List (ℝ × ℝ × ℕ)) (best : ℝ) (bd : WithTop ℝ)
    (hg : ¬(N ≤ depth ∨ high - low < tol)) (hm : f ((low + high) / 2) = some v)
    (hacc : |t - v| < tol) :
    searchRun f t tol N ((low, high, depth) :: stack) best bd =
      ⟨some ((low + high) / 2), [(low + high) / 2], 1, 1, stack.length + 1⟩ := by
  rw [searchRun, if_neg hg]
  dsimp only
  rw [hm]
  dsimp only
  rw [if_pos hacc]

theorem searchRun_failleft {f : ℝ → Option ℝ} {t tol : ℝ} {N : ℕ} {low high : ℝ} {depth : ℕ}
    {v : ℝ} (stack : List (ℝ × ℝ × ℕ)) (best : ℝ) (bd : WithTop ℝ)
    (hg : ¬(N ≤ depth ∨ high - low < tol)) (hm : f ((low + high) / 2) = some v)
    (hnacc : ¬|t - v| < tol) (hl : f ((low + (low + high) / 2) / 2) = none) :
    searchRun f t tol N ((low, high, depth) :: stack) best bd =
      ⟨none, [(low + high) / 2], 1, 2, stack.length + 1⟩ := by
  rw [searchRun, if_neg hg]
  dsimp only
  rw [hm]
  dsimp only
  rw [if_neg hnacc, hl]

theorem searchRun_failright {f : ℝ → Option ℝ} {t tol : ℝ} {N : ℕ} {low high : ℝ} {depth : ℕ}
    {v vl : ℝ} (stack : List (ℝ × ℝ × ℕ)) (best : ℝ) (bd : WithTop ℝ)
    (hg : ¬(N ≤ depth ∨ high - low < tol)) (hm : f ((low + high) / 2) = some v)
    (hnacc : ¬|t - v| < tol) (hl : f ((low + (low + high) / 2) / 2) = some vl)
    (hr : f (((low + high) / 2 + high) / 2) = none) :
    searchRun f t tol N ((low, high, depth) :: stack) best bd =
      ⟨none, [(low + high) / 2], 1, 3, stack.length + 1⟩ := by
  rw [searchRun, if_neg hg]
  dsimp only
  rw [hm]
  dsimp only
  rw [if_neg hnacc, hl]
  dsimp only
  rw [hr]

theorem searchRun_step {f : ℝ → Option ℝ} {t tol : ℝ} {N : ℕ} {low high : ℝ} {depth : ℕ}
    {v vl vr : ℝ} (stack : List (ℝ × ℝ × ℕ)) (best : ℝ) (bd : WithTop ℝ)
    (hg : ¬(N ≤ depth ∨ high - low < tol)) (hm : f ((low + high) / 2) = some v)
    (hnacc : ¬|t - v| < tol) (hl : f ((low + (low + high) / 2) / 2) = some vl)
    (hr : f (((low + high) / 2 + high) / 2) = some vr) :
    searchRun f t tol N ((low, high, depth) :: stack) best bd =
      (let next := if |vl - t| < |vr - t| then (low, (low + high) / 2, depth + 1)
        else ((low + high) / 2, high, depth + 1)
      let best' := if ((|t - v| : ℝ) : WithTop ℝ) < bd then (low + high) / 2 else best
      let bd' := if ((|t - v| : ℝ) : WithTop ℝ) < bd then ((|t - v| : ℝ) : WithTop ℝ) else bd
      let r := searchRun f t tol N (next :: stack) best' bd'
      ⟨r.result, (low + high) / 2 :: r.trace, r.pops + 1, r.evals + 3,
        max (stack.length + 1) r.maxStack⟩) := by
  rw [searchRun, if_neg hg]
  dsimp only
  rw [hm]
  dsimp only
  rw [if_neg hnacc, hl]
  dsimp only
  rw [hr]

/-- The instrumented mirror computes exactly the loop's result. -/
theorem searchRun_result_eq (f : ℝ → Option ℝ) (t tol : ℝ) (N : ℕ) :
    ∀ (stack : List (ℝ × ℝ × ℕ)) (best : ℝ) (bd : WithTop ℝ),
      (searchRun f t tol N stack best bd).result = searchLoop f t tol N stack best bd := by
  intro stack best bd
  induction stack, best, bd using searchRun.induct f t tol N with
  | case1 best bd => rw [searchRun_nil, searchLoop_nil]
  | case2 low high depth stack best bd h ih =>
    rw [searchRun_guard stack best bd h, searchLoop_guard stack best bd h]
    exact ih
  | case3 low high depth stack best bd hg mid hm =>
    rw [searchRun_failmid stack best bd hg hm, searchLoop_failmid stack best bd hg hm]
  | case4 low high depth stack best bd hg mid v hm hacc =>
    rw [searchRun_accept stack best bd hg hm hacc, searchLoop_accept stack best bd hg hm hacc]
  | case5 low high depth stack best bd hg mid v hm hnacc hl =>
    rw [searchRun_failleft stack best bd hg hm hnacc hl,
      searchLoop_failleft stack best bd hg hm hnacc hl]
  | case6 low high depth stack best bd hg mid v hm hnacc vl hl hr =>
    rw [searchRun_failright stack best bd hg hm hnacc hl hr,
      searchLoop_failright stack best bd hg hm hnacc hl hr]
  | case7 low high depth stack best bd hg mid v hm hnacc best' bd' vl hl vr hr next ih =>
    rw [searchRun_step stack best bd hg hm hnacc hl hr,
      searchLoop_step stack best bd hg hm hnacc hl hr]
    exact ih

/-- Termination measure of the search loop. -/
def searchMeasure (N : ℕ) (stack : List (ℝ × ℝ × ℕ)) : ℕ :=
  (stack.map fun p => N + 1 - p.2.2).sum + stack.length

/-- Resource bounds of the instrumented search: with all stacked depths at
most `N`, the iteration count is bounded by the total depth budget, each
iteration attempts at most 3 evaluations, and the stack never grows beyond
its initial size. -/
theorem searchRun_bounds (f : ℝ → Option ℝ) (t tol : ℝ) (N : ℕ) :
    ∀ (stack : List (ℝ × ℝ × ℕ)) (best : ℝ) (bd : WithTop ℝ),
      (∀ p ∈ stack, p.2.2 ≤ N) →
      (searchRun f t tol N stack best bd).pops ≤ (stack.map fun p => N + 1 - p.2.2).sum ∧
      (searchRun f t tol N stack best bd).evals ≤
        3 * (stack.map fun p => N + 1 - p.2.2).sum ∧
      (searchRun f t tol N stack best bd).maxStack ≤ stack.length := by
  intro stack
  generalize hμ : searchMeasure N stack = μ
  induction μ using Nat.strong_induction_on generalizing stack with
  | _ μ ih =>
    intro best bd hdep
    match stack, hμ with
    | [], hμ => rw [searchRun_nil]; simp
    | (low, high, depth) :: rest, hμ =>
      have hdhead : depth ≤ N := hdep (low, high, depth) (List.mem_cons_self _ _)
      have hwt : 1 ≤ N + 1 - depth := by omega
      by_cases hg : N ≤ depth ∨ high - low < tol
      · rw [searchRun_guard rest best bd hg]
        have hrest := ih (searchMeasure N rest) (by unfold searchMeasure at hμ ⊢; simp at hμ; omega)
          rest rfl best bd (fun p hp => hdep p (List.mem_cons_of_mem _ hp))
        dsimp only
        simp only [List.map_cons, List.sum_cons, List.length_cons]
        omega
      · match hfm : f ((low + high) / 2) with
        | none =>
          rw [searchRun_failmid rest best bd hg hfm]
          simp only [List.map_cons, List.sum_cons, List.length_cons]
          refine ⟨by omega, by omega, by omega⟩
        | some v =>
          by_cases hacc : |t - v| < tol
          · rw [searchRun_accept rest best bd hg hfm hacc]
            simp only [List.map_cons, List.sum_cons, List.length_cons]
            refine ⟨by omega, by omega, by omega⟩
          · match hfl : f ((low + (low + high) / 2) / 2) with
            | none =>
              rw [searchRun_failleft rest best bd hg hfm hacc hfl]
              simp only [List.map_cons, List.sum_cons, List.length_cons]
              refine ⟨by omega, by omega, by omega⟩
            | some vl =>
              match hfr : f (((low + high) / 2 + high) / 2) with
              | none =>
                rw [searchRun_failright rest best bd hg hfm hacc hfl hfr]
                simp only [List.map_cons, List.sum_cons, List.length_cons]
                refine ⟨by omega, by omega, by omega⟩
              | some vr =>
                rw [searchRun_step rest best bd hg hfm hacc hfl hfr]
                dsimp only
                set next := if |vl - t| < |vr - t| then (low, (low + high) / 2, depth + 1)
                  else ((low + high) / 2, high, depth + 1) with hnextdef
                have hdepth_lt : depth < N := by
                  push_neg at hg
                  omega
                have hnextd : next.2.2 = depth + 1 := by
                  rw [hnextdef]; split <;> rfl
                have hrec := ih (searchMeasure N (next :: rest))
                  (by
                    unfold searchMeasure at hμ ⊢
                    simp only [List.map_cons, List.sum_cons, List.length_cons] at hμ ⊢
                    rw [hnextd]
                    omega)
                  (next :: rest) rfl
                  (if ((|t - v| : ℝ) : WithTop ℝ) < bd then (low + high) / 2 else best)
                  (if ((|t - v| : ℝ) : WithTop ℝ) < bd then ((|t - v| : ℝ) : WithTop ℝ) else bd)
                  (by
                    intro p hp
                    rcases List.mem_cons.mp hp with hp | hp
                    · rw [hp, hnextd]; omega
                    · exact hdep p (List.mem_cons_of_mem _ hp))
                simp only [List.map_cons, List.sum_cons, List.length_cons, hnextd] at hrec ⊢
                omega

/-- C10: in each iteration the search pops one interval and pushes at most
one with depth incremented, so from the initial singleton stack the stack
never holds more than one entry, the loop performs at most
`max_iterations + 1` pops, at most `3·(max_iterations + 1)` similarity
evaluations are attempted, and the instrumented run returns exactly the
loop's result. -/
theorem C10_search_resource_bounds (f : ℝ → Option ℝ) (t tol : ℝ) (N : ℕ) (low high : ℝ)
    (best : ℝ) (bd : WithTop ℝ) :
    (searchRun f t tol N [(low, high, 0)] best bd).maxStack ≤ 1 ∧
      (searchRun f t tol N [(low, high, 0)] best bd).pops ≤ N + 1 ∧
      (searchRun f t tol N [(low, high, 0)] best bd).evals ≤ 3 * (N + 1) ∧
      (searchRun f t tol N [(low, high, 0)] best bd).result =
        searchLoop f t tol N [(low, high, 0)] best bd := by
  have h := searchRun_bounds f t tol N [(low, high, 0)] best bd (by simp)
  simp only [List.map_cons, List.map_nil, List.sum_cons, List.sum_nil, List.length_cons,
    List.length_nil, Nat.sub_zero, Nat.add_zero] at h
  exact ⟨h.2.2, h.1, h.2.1, searchRun_result_eq f t tol N _ best bd⟩

/-! ### Claim C4: result of the adaptive search -/

/-- A tolerance value whose achieved similarity is within `tol` of the
target (the early-exit condition of the search). -/
def accepted (f : ℝ → Option ℝ) (t tol m : ℝ) : Prop :=
  ∃ v, f m = some v ∧ |t - v| < tol

/-- Every trace entry was successfully evaluated. -/
theorem searchRun_trace_evaluable (f : ℝ → Option ℝ) (t tol : ℝ) (N : ℕ) :
    ∀ (stack : List (ℝ × ℝ × ℕ)) (best : ℝ) (bd : WithTop ℝ),
      ∀ x ∈ (searchRun f t tol N stack best bd).trace, ∃ v, f x = some v := by
  intro stack
  generalize hμ : searchMeasure N stack = μ
  induction μ using Nat.strong_induction_on generalizing stack with
  | _ μ ih =>
    intro best bd
    match stack, hμ with
    | [], hμ => rw [searchRun_nil]; simp
    | (low, high, depth) :: rest, hμ =>
      by_cases hg : N ≤ depth ∨ high - low < tol
      · rw [searchRun_guard rest best bd hg]
        exact ih (searchMeasure N rest)
          (by unfold searchMeasure at hμ ⊢; simp at hμ; omega) rest rfl best bd
      · match hfm : f ((low + high) / 2) with
        | none => rw [searchRun_failmid rest best bd hg hfm]; simp
        | some v =>
          by_cases hacc : |t - v| < tol
          · rw [searchRun_accept rest best bd hg hfm hacc]
            intro x hx
            rw [List.mem_singleton] at hx
            exact ⟨v, hx ▸ hfm⟩
          · match hfl : f ((low + (low + high) / 2) / 2) with
            | none =>
              rw [searchRun_failleft rest best bd hg hfm hacc hfl]
              intro x hx
              rw [List.mem_singleton] at hx
              exact ⟨v, hx ▸ hfm⟩
            | some vl =>
              match hfr : f (((low + high) / 2 + high) / 2) with
              | none =>
                rw [searchRun_failright rest best bd hg hfm hacc hfl hfr]
                intro x hx
                rw [List.mem_singleton] at hx
                exact ⟨v, hx ▸ hfm⟩
              | some vr =>
                rw [searchRun_step rest best bd hg hfm hacc hfl hfr]
                dsimp only
                intro x hx
                rcases List.mem_cons.mp hx with hx | hx
                · exact ⟨v, hx ▸ hfm⟩
                · have hdepth_lt : depth < N := by push_neg at hg; omega
                  have hnextd : (if |vl - t| < |vr - t|
                      then (low, (low + high) / 2, depth + 1)
                      else ((low + high) / 2, high, depth + 1)).2.2 = depth + 1 := by
                    split <;> rfl
                  refine ih (searchMeasure N
                      ((if |vl - t| < |vr - t| then (low, (low + high) / 2, depth + 1)
                        else ((low + high) / 2, high, depth + 1)) :: rest))
                    ?_ ((if |vl - t| < |vr - t| then (low, (low + high) / 2, depth + 1)
                        else ((low + high) / 2, high, depth + 1)) :: rest) rfl _ _ x hx
                  unfold searchMeasure at hμ ⊢
                  simp only [List.map_cons, List.sum_cons, List.length_cons] at hμ ⊢
                  rw [hnextd]
                  omega

/-- Characterisation of a successful search run: the result is the first
accepted midpoint of the evaluation trace, or — when no midpoint is accepted
— either the incoming `best` (when nothing beats the incoming `bestDiff`) or
the first trace midpoint achieving the minimal distance to the target. -/
theorem searchRun_spec (f : ℝ → Option ℝ) (t tol : ℝ) (N : ℕ) :
    ∀ (stack : List (ℝ × ℝ × ℕ)) (best : ℝ) (bd : WithTop ℝ) (r : ℝ),
      (searchRun f t tol N stack best bd).result = some r →
      (∃ i, i < (searchRun f t tol N stack best bd).trace.length ∧
          (searchRun f t tol N stack best bd).trace.getD i 0 = r ∧
          accepted f t tol r ∧
          ∀ j < i, ¬accepted f t tol ((searchRun f t tol N stack best bd).trace.getD j 0)) ∨
      ((∀ x ∈ (searchRun f t tol N stack best bd).trace, ¬accepted f t tol x) ∧
        ((r = best ∧ ∀ x ∈ (searchRun f t tol N stack best bd).trace, ∀ w, f x = some w →
            ¬(((|t - w| : ℝ) : WithTop ℝ) < bd)) ∨
          (r ∈ (searchRun f t tol N stack best bd).trace ∧ ∃ v, f r = some v ∧
            ((|t - v| : ℝ) : WithTop ℝ) < bd ∧
            ∀ x ∈ (searchRun f t tol N stack best bd).trace, ∀ w, f x = some w →
              |t - v| ≤ |t - w|))) := by
  intro stack
  generalize hμ : searchMeasure N stack = μ
  induction μ using Nat.strong_induction_on generalizing stack with
  | _ μ ih =>
    intro best bd r hres
    match stack, hμ with
    | [], hμ =>
      rw [searchRun_nil] at hres ⊢
      simp only [Option.some.injEq] at hres
      right
      refine ⟨by simp, Or.inl ⟨hres.symm, by simp⟩⟩
    | (low, high, depth) :: rest, hμ =>
      have hμrest : searchMeasure N rest < μ := by
        unfold searchMeasure at hμ ⊢; simp at hμ; omega
      by_cases hg : N ≤ depth ∨ high - low < tol
      · rw [searchRun_guard rest best bd hg] at hres ⊢
        exact ih (searchMeasure N rest) hμrest rest rfl best bd r hres
      · match hfm : f ((low + high) / 2) with
        | none => rw [searchRun_failmid rest best bd hg hfm] at hres; exact absurd hres (by simp)
        | some v =>
          by_cases hacc : |t - v| < tol
          · rw [searchRun_accept rest best bd hg hfm hacc] at hres ⊢
            simp only [Option.some.injEq] at hres
            left
            exact ⟨0, by simp, by simpa using hres,
              hres ▸ ⟨v, hfm, hacc⟩, by omega⟩
          · match hfl : f ((low + (low + high) / 2) / 2) with
            | none =>
              rw [searchRun_failleft rest best bd hg hfm hacc hfl] at hres
              exact absurd hres (by simp)
            | some vl =>
              match hfr : f (((low + high) / 2 + high) / 2) with
              | none =>
                rw [searchRun_failright rest best bd hg hfm hacc hfl hfr] at hres
                exact absurd hres (by simp)
              | some vr =>
                rw [searchRun_step rest best bd hg hfm hacc hfl hfr] at hres ⊢
                dsimp only at hres ⊢
                have hdepth_lt : depth < N := by push_neg at hg; omega
                have hnotaccmid : ¬accepted f t tol ((low + high) / 2) := by
                  rintro ⟨w, hw, hwlt⟩
                  rw [hfm] at hw
                  exact hacc (Option.some.inj hw ▸ hwlt)
                set next := if |vl - t| < |vr - t| then (low, (low + high) / 2, depth + 1)
                  else ((low + high) / 2, high, depth + 1) with hnextdef
                have hnextd : next.2.2 = depth + 1 := by rw [hnextdef]; split <;> rfl
                have hμnext : searchMeasure N (next :: rest) < μ := by
                  unfold searchMeasure at hμ ⊢
                  simp only [List.map_cons, List.sum_cons, List.length_cons] at hμ ⊢
                  rw [hnextd]
                  omega
                set best' := if ((|t - v| : ℝ) : WithTop ℝ) < bd then (low + high) / 2 else best
                  with hbest'
                set bd' := if ((|t - v| : ℝ) : WithTop ℝ) < bd then ((|t - v| : ℝ) : WithTop ℝ)
                  else bd with hbd'
                have hrec := ih (searchMeasure N (next :: rest)) hμnext
                  (next :: rest) rfl best' bd' r hres
                set tr' := (searchRun f t tol N (next :: rest) best' bd').trace with htr'
                rcases hrec with ⟨i, hilen, hival, hiacc, hifirst⟩ | ⟨hnoacc, hsub⟩
                · left
                  refine ⟨i + 1, by simpa using hilen, by simpa using hival, hiacc, ?_⟩
                  intro j hj
                  match j with
                  | 0 => simpa using hnotaccmid
                  | j + 1 =>
                    have := hifirst j (by omega)
                    simpa using this
                · have hnoacc' : ∀ x ∈ (low + high) / 2 :: tr', ¬accepted f t tol x := by
                    intro x hx
                    rcases List.mem_cons.mp hx with hx | hx
                    · exact hx ▸ hnotaccmid
                    · exact hnoacc x hx
                  right
                  refine ⟨hnoacc', ?_⟩
                  by_cases hupd : ((|t - v| : ℝ) : WithTop ℝ) < bd
                  · -- the midpoint became the new best
                    rcases hsub with ⟨hrb, hmin⟩ | ⟨hrmem, v', hv', hvlt, hmin⟩
                    · -- r = best' = mid
                      right
                      have hrbm : r = (low + high) / 2 := by rw [hrb, hbest', if_pos hupd]
                      refine ⟨by rw [hrbm]; exact List.mem_cons_self _ _,
                        v, by rw [hrbm]; exact hfm, hupd, ?_⟩
                      intro x hx w hw
                      rcases List.mem_cons.mp hx with hx | hx
                      · rw [hx, hfm] at hw
                        rw [Option.some.inj hw]
                      · have := hmin x hx w hw
                        rw [hbd', if_pos hupd] at this
                        rw [WithTop.coe_lt_coe, not_lt] at this
                        exact this
                    · -- r is the best of the deeper run
                      right
                      refine ⟨List.mem_cons_of_mem _ hrmem, v', hv', ?_, ?_⟩
                      · rw [hbd', if_pos hupd] at hvlt
                        exact lt_trans hvlt hupd
                      · intro x hx w hw
                        rcases List.mem_cons.mp hx with hx | hx
                        · rw [hx, hfm] at hw
                          rw [← Option.some.inj hw]
                          rw [hbd', if_pos hupd, WithTop.coe_lt_coe] at hvlt
                          exact le_of_lt hvlt
                        · exact hmin x hx w hw
                  · -- the incoming best survived this iteration
                    rcases hsub with ⟨hrb, hmin⟩ | ⟨hrmem, v', hv', hvlt, hmin⟩
                    · left
                      have hrbm : r = best := by rw [hrb, hbest', if_neg hupd]
                      refine ⟨hrbm, ?_⟩
                      intro x hx w hw
                      rcases List.mem_cons.mp hx with hx | hx
                      · rw [hx, hfm] at hw
                        rw [← Option.some.inj hw]
                        exact hupd
                      · have := hmin x hx w hw
                        rw [hbd', if_neg hupd] at this
                        exact this
                    · right
                      rw [hbd', if_neg hupd] at hvlt
                      refine ⟨List.mem_cons_of_mem _ hrmem, v', hv', hvlt, ?_⟩
                      intro x hx w hw
                      rcases List.mem_cons.mp hx with hx | hx
                      · rw [hx, hfm] at hw
                        rw [← Option.some.inj hw]
                        have hble : bd ≤ ((|t - v| : ℝ) : WithTop ℝ) := not_lt.mp hupd
                        have := lt_of_lt_of_le hvlt hble
                        rw [WithTop.coe_lt_coe] at this
                        exact le_of_lt this
                      · exact hmin x hx w hw

/-- The interval midpoints successfully evaluated by
`_find_optimal_epsilon(data)` (default parameters), in evaluation order. -/
def searchTraceOf (t : ℝ) (d : CurveData) : List ℝ :=
  (searchRun (evaluateEpsilon d) t (1 / 10000) 50 [(1 / 1000000, 1, 0)] 1 ⊤).trace

/-- C4: a successful adaptive search returns either the first evaluated
interval midpoint whose achieved similarity differs from the target by less
than `ncc_tolerance` (immediate early exit), or — when the work-stack empties
without such a midpoint — a midpoint evaluated during the run achieving the
smallest absolute difference between its similarity and the target. -/
theorem C4_search_result (t : ℝ) (d : CurveData) (r : ℝ)
    (h : findOptimalEpsilon t d = some r) :
    (∃ i, i < (searchTraceOf t d).length ∧ (searchTraceOf t d).getD i 0 = r ∧
        accepted (evaluateEpsilon d) t (1 / 10000) r ∧
        ∀ j < i, ¬accepted (evaluateEpsilon d) t (1 / 10000) ((searchTraceOf t d).getD j 0)) ∨
    ((∀ x ∈ searchTraceOf t d, ¬accepted (evaluateEpsilon d) t (1 / 10000) x) ∧
      r ∈ searchTraceOf t d ∧ ∃ v, evaluateEpsilon d r = some v ∧
      ∀ x ∈ searchTraceOf t d, ∀ w, evaluateEpsilon d x = some w → |t - v| ≤ |t - w|) := by
  have hres : (searchRun (evaluateEpsilon d) t (1 / 10000) 50
      [(1 / 1000000, 1, 0)] 1 ⊤).result = some r := by
    rw [searchRun_result_eq]
    exact h
  rcases searchRun_spec (evaluateEpsilon d) t (1 / 10000) 50 [(1 / 1000000, 1, 0)] 1 ⊤ r hres
    with hleft | ⟨hnoacc, hsub⟩
  · exact Or.inl hleft
  rcases hsub with ⟨hrb, hall⟩ | ⟨hm, v, hv, _, hmin⟩
  · -- no midpoint was ever evaluated: impossible at the top level
    exfalso
    have hg : ¬((50 : ℕ) ≤ 0 ∨ (1 : ℝ) - 1 / 1000000 < 1 / 10000) := by norm_num
    have hmid_mem : ∃ v0, evaluateEpsilon d ((1 / 1000000 + 1) / 2) = some v0 ∧
        (1 / 1000000 + 1) / 2 ∈ (searchRun (evaluateEpsilon d) t (1 / 10000) 50
          [(1 / 1000000, 1, 0)] 1 ⊤).trace := by
      match hfm : evaluateEpsilon d ((1 / 1000000 + 1) / 2) with
      | none =>
        rw [searchRun_failmid [] 1 ⊤ hg hfm] at hres
        exact absurd hres (by simp)
      | some v0 =>
        by_cases hacc : |t - v0| < 1 / 10000
        · rw [searchRun_accept [] 1 ⊤ hg hfm hacc]
          exact ⟨v0, rfl, by simp⟩
        · match hfl : evaluateEpsilon d ((1 / 1000000 + (1 / 1000000 + 1) / 2) / 2) with
          | none =>
            rw [searchRun_failleft [] 1 ⊤ hg hfm hacc hfl] at hres
            exact absurd hres (by simp)
          | some vl =>
            match hfr : evaluateEpsilon d (((1 / 1000000 + 1) / 2 + 1) / 2) with
            | none =>
              rw [searchRun_failright [] 1 ⊤ hg hfm hacc hfl hfr] at hres
              exact absurd hres (by simp)
            | some vr =>
              rw [searchRun_step [] 1 ⊤ hg hfm hacc hfl hfr]
              exact ⟨v0, rfl, by dsimp only; exact List.mem_cons_self _ _⟩
    obtain ⟨v0, hv0, hmem⟩ := hmid_mem
    exact (hall _ hmem v0 hv0) (WithTop.coe_lt_top _)
  · exact Or.inr ⟨hnoacc, hm, v, hv, hmin⟩

/-! ### Concrete evaluation of the pipeline on a constant 3-point curve -/

theorem const3_dpSplit (ε : ℝ) (hε : 0 ≤ ε) :
    dpSplit [((0 : ℝ), (5 : ℝ)), (1, 5), (2, 5)] ε 0 2 = none := by
  rw [dpSplit_def]
  rw [if_neg (by norm_num : ¬((2 : ℤ) - 0 ≤ 1))]
  have hseg : pySlice [((0 : ℝ), (5 : ℝ)), (1, 5), (2, 5)] 0 (2 + 1) =
      [((0 : ℝ), (5 : ℝ)), (1, 5), (2, 5)] := rfl
  rw [if_neg (by rw [hseg]; norm_num :
    ¬(pySlice [((0 : ℝ), (5 : ℝ)), (1, 5), (2, 5)] 0 (2 + 1)).length ≤ 2)]
  have hdist : dpSplitDistances [((0 : ℝ), (5 : ℝ)), (1, 5), (2, 5)] 0 2 = [0] := by
    unfold dpSplitDistances
    rw [hseg]
    dsimp only
    have hinner : pySlice [((0 : ℝ), (5 : ℝ)), (1, 5), (2, 5)] 1 (-1) = [((1 : ℝ), (5 : ℝ))] :=
      rfl
    rw [hinner]
    show perpendicularDistance [((1 : ℝ), (5 : ℝ))] (0, 5) (2, 5) = [0]
    unfold perpendicularDistance
    rw [if_neg (by norm_num : ¬((0 : ℝ), (5 : ℝ)) = ((2 : ℝ), (5 : ℝ)))]
    dsimp only [List.map]
    norm_num
  rw [hdist]
  rw [if_neg (by
    show ¬ε < listMax [0]
    have : listMax [0] = 0 := rfl
    rw [this]
    exact not_lt.mpr hε)]

theorem const3_simplify (ε : ℝ) (hε : 0 ≤ ε) :
    simplifyWithEpsilon (CurveData.mk [0, 1, 2] [5, 5, 5]) ε =
      some (CurveData.mk [0, 2] [5, 5]) := by
  have hpts : (CurveData.mk [0, 1, 2] [5, 5, 5]).points =
      [((0 : ℝ), (5 : ℝ)), (1, 5), (2, 5)] := rfl
  have hlen : ((([((0 : ℝ), (5 : ℝ)), (1, 5), (2, 5)]).length : ℤ) - 1) = 2 := by norm_num
  have hloop : dpLoop [((0 : ℝ), (5 : ℝ)), (1, 5), (2, 5)] ε [(0, 2)] [0, 2] = [0, 2] := by
    rw [dpLoop_cons_none _ _ (const3_dpSplit ε hε), dpLoop_nil]
  have hidx : dpIndices [((0 : ℝ), (5 : ℝ)), (1, 5), (2, 5)] ε = [0, 2] := by
    unfold dpIndices
    rw [hlen, hloop]
    decide
  unfold simplifyWithEpsilon douglasPeuckerIterative
  rw [hpts, hidx]
  rfl

theorem const3_ncc :
    calculateNcc (CurveData.mk [0, 1, 2] [5, 5, 5]) (CurveData.mk [0, 2] [5, 5]) = some 0 := by
  have hstd : npStd (CurveData.mk [0, 1, 2] [5, 5, 5]).y = 0 := by
    show Real.sqrt _ = 0
    norm_num [npMean]
  unfold calculateNcc
  rw [if_neg (by norm_num)]
  dsimp only
  rw [if_pos (Or.inl hstd)]

theorem const3_evaluateEpsilon (ε : ℝ) (hε : 0 ≤ ε) :
    evaluateEpsilon (CurveData.mk [0, 1, 2] [5, 5, 5]) ε = some 0 := by
  unfold evaluateEpsilon
  rw [const3_simplify ε hε]
  exact const3_ncc

/-- With target similarity 0 on a constant curve, the very first midpoint is
accepted, so the search returns `(1e-6 + 1)/2` after a single iteration. -/
theorem const3_findOptimalEpsilon :
    findOptimalEpsilon 0 (CurveData.mk [0, 1, 2] [5, 5, 5]) =
      some ((1 / 1000000 + 1) / 2) := by
  show searchLoop _ _ _ _ _ _ _ = _
  rw [searchLoop_accept [] 1 ⊤ (by norm_num)
    (const3_evaluateEpsilon ((1 / 1000000 + 1) / 2) (by norm_num)) (by norm_num)]

theorem C7_simplify_idempotent_witness :
    simplifyWithEpsilon (CurveData.mk [0, 1, 2] [5, 5, 5]) 1 =
        some (CurveData.mk [0, 2] [5, 5]) ∧
      simplifyWithEpsilon (CurveData.mk [0, 2] [5, 5]) 1 =
        some (CurveData.mk [0, 2] [5, 5]) :=
  ⟨const3_simplify 1 (by norm_num),
    C7_simplify_idempotent (CurveData.mk [0, 1, 2] [5, 5, 5]) 1 (CurveData.mk [0, 2] [5, 5])
      (const3_simplify 1 (by norm_num))⟩

/-- The corresponding instrumented run evaluates exactly one midpoint. -/
theorem const3_searchTrace :
    searchTraceOf 0 (CurveData.mk [0, 1, 2] [5, 5, 5]) = [(1 / 1000000 + 1) / 2] := by
  unfold searchTraceOf
  rw [searchRun_accept [] 1 ⊤ (by norm_num)
    (const3_evaluateEpsilon ((1 / 1000000 + 1) / 2) (by norm_num)) (by norm_num)]

theorem C3_tolerance_monotone_witness :
    ((1 : ℝ) / 2 ≤ 2) ∧
      (dpIndices [((0 : ℝ), (0 : ℝ)), (1, 1), (2, 0)] 2).length ≤
        (dpIndices [((0 : ℝ), (0 : ℝ)), (1, 1), (2, 0)] (1 / 2)).length :=
  ⟨by norm_num, C3_tolerance_monotone [((0 : ℝ), (0 : ℝ)), (1, 1), (2, 0)] (by norm_num)⟩

theorem C4_search_result_witness :
    findOptimalEpsilon 0 (CurveData.mk [0, 1, 2] [5, 5, 5]) =
        some ((1 / 1000000 + 1) / 2) ∧
      ((∃ i, i < (searchTraceOf 0 (CurveData.mk [0, 1, 2] [5, 5, 5])).length ∧
          (searchTraceOf 0 (CurveData.mk [0, 1, 2] [5, 5, 5])).getD i 0 =
            (1 / 1000000 + 1) / 2 ∧
          accepted (evaluateEpsilon (CurveData.mk [0, 1, 2] [5, 5, 5])) 0 (1 / 10000)
            ((1 / 1000000 + 1) / 2) ∧
          ∀ j < i, ¬accepted (evaluateEpsilon (CurveData.mk [0, 1, 2] [5, 5, 5])) 0 (1 / 10000)
            ((searchTraceOf 0 (CurveData.mk [0, 1, 2] [5, 5, 5])).getD j 0)) ∨
        ((∀ x ∈ searchTraceOf 0 (CurveData.mk [0, 1, 2] [5, 5, 5]),
            ¬accepted (evaluateEpsilon (CurveData.mk [0, 1, 2] [5, 5, 5])) 0 (1 / 10000) x) ∧
          (1 / 1000000 + 1) / 2 ∈ searchTraceOf 0 (CurveData.mk [0, 1, 2] [5, 5, 5]) ∧
          ∃ v, evaluateEpsilon (CurveData.mk [0, 1, 2] [5, 5, 5]) ((1 / 1000000 + 1) / 2) =
              some v ∧
            ∀ x ∈ searchTraceOf 0 (CurveData.mk [0, 1, 2] [5, 5, 5]), ∀ w,
              evaluateEpsilon (CurveData.mk [0, 1, 2] [5, 5, 5]) x = some w →
                |0 - v| ≤ |0 - w|)) :=
  ⟨const3_findOptimalEpsilon,
    C4_search_result 0 (CurveData.mk [0, 1, 2] [5, 5, 5]) ((1 / 1000000 + 1) / 2)
      const3_findOptimalEpsilon⟩

/-! ### Claim C6: small curves -/

/-- C6 as stated is false at the empty curve: `result = [0, len(points)-1]`
is `[0, -1]` there, and `points[-1]` on an empty array raises `IndexError`
(modelled as `none`), so the empty curve is not returned unchanged. -/
theorem C6_counterexample :
    simplifyWithEpsilon (CurveData.mk [] []) 1 ≠ some (CurveData.mk [] []) ∧
      simplifyWithEpsilon (CurveData.mk [] []) 1 = none := by
  have hnone : simplifyWithEpsilon (CurveData.mk [] []) 1 = none := by
    have hpts : (CurveData.mk [] []).points = ([] : List (ℝ × ℝ)) := rfl
    have hloop : dpLoop ([] : List (ℝ × ℝ)) 1 [(0, -1)] [0, -1] = [0, -1] := by
      rw [dpLoop_cons_none _ _ (dpSplit_le_one (by norm_num)), dpLoop_nil]
    have hidx : dpIndices ([] : List (ℝ × ℝ)) 1 = [-1, 0] := by
      unfold dpIndices
      rw [show ((List.length ([] : List (ℝ × ℝ)) : ℤ) - 1) = -1 from by norm_num, hloop]
      decide
    unfold simplifyWithEpsilon douglasPeuckerIterative
    rw [hpts, hidx]
    rfl
  exact ⟨by rw [hnone]; exact fun hcon => Option.noConfusion hcon, hnone⟩

/-- C6 (amended): every curve with 1 or 2 points (equal-length coordinate
vectors) is returned unchanged, for every tolerance.  (The empty curve
instead raises, see the counterexample.) -/
theorem C6_small_curve_unchanged (d : CurveData) (hlen : d.x.length = d.y.length)
    (h1 : 1 ≤ d.x.length) (h2 : d.x.length ≤ 2) (ε : ℝ) :
    simplifyWithEpsilon d ε = some d := by
  obtain ⟨x, y⟩ := d
  simp only at hlen h1 h2
  have hx : x.length = 1 ∨ x.length = 2 := by omega
  rcases hx with hx | hx
  · obtain ⟨a, rfl⟩ := List.length_eq_one.mp hx
    obtain ⟨b, rfl⟩ := List.length_eq_one.mp (by omega : y.length = 1)
    have hpts : (CurveData.mk [a] [b]).points = [(a, b)] := rfl
    have hloop : dpLoop [(a, b)] ε [(0, 0)] [0, 0] = [0, 0] := by
      rw [dpLoop_cons_none _ _ (dpSplit_le_one (by norm_num)), dpLoop_nil]
    have hidx : dpIndices [(a, b)] ε = [0] := by
      unfold dpIndices
      rw [show ((List.length [(a, b)] : ℤ) - 1) = 0 from by norm_num, hloop]
      decide
    unfold simplifyWithEpsilon douglasPeuckerIterative
    rw [hpts, hidx]
    rfl
  · obtain ⟨a, b, rfl⟩ := List.length_eq_two.mp hx
    obtain ⟨c, d', rfl⟩ := List.length_eq_two.mp (by omega : y.length = 2)
    have hpts : (CurveData.mk [a, b] [c, d']).points = [(a, c), (b, d')] := rfl
    have hloop : dpLoop [(a, c), (b, d')] ε [(0, 1)] [0, 1] = [0, 1] := by
      rw [dpLoop_cons_none _ _ (dpSplit_le_one (by norm_num)), dpLoop_nil]
    have hidx : dpIndices [(a, c), (b, d')] ε = [0, 1] := by
      unfold dpIndices
      rw [show ((List.length [(a, c), (b, d')] : ℤ) - 1) = 1 from by norm_num, hloop]
      decide
    unfold simplifyWithEpsilon douglasPeuckerIterative
    rw [hpts, hidx]
    rfl

theorem C6_small_curve_unchanged_witness :
    ((CurveData.mk [0, 1] [2, 3]).x.length = (CurveData.mk [0, 1] [2, 3]).y.length ∧
        1 ≤ (CurveData.mk [0, 1] [2, 3]).x.length ∧
        (CurveData.mk [0, 1] [2, 3]).x.length ≤ 2) ∧
      simplifyWithEpsilon (CurveData.mk [0, 1] [2, 3]) 1 =
        some (CurveData.mk [0, 1] [2, 3]) :=
  ⟨⟨rfl, by norm_num, by norm_num⟩,
    C6_small_curve_unchanged (CurveData.mk [0, 1] [2, 3]) rfl (by norm_num) (by norm_num) 1⟩

/-! ### Claim C8: degenerate (zero-variance) similarity -/

/-- C8 as stated is false: when the candidate curve has fewer than 2 points,
`interp1d` raises before the standard deviations are even computed, so a
zero-variance reference curve paired with a 1-point candidate produces an
error, not 0.  Concrete input: reference `x=[0,1], y=[5,5]` (zero variance),
candidate `x=[0], y=[1]`. -/
theorem C8_counterexample :
    npStd (CurveData.mk [0, 1] [5, 5]).y = 0 ∧
      calculateNcc (CurveData.mk [0, 1] [5, 5]) (CurveData.mk [0] [1]) ≠ some 0 := by
  constructor
  · show Real.sqrt _ = 0
    norm_num [npMean]
  · unfold calculateNcc
    norm_num
    exact fun hcon => Option.noConfusion hcon

/-- C8 (amended): for every pair of curves whose candidate has at least 2
points (so that resampling succeeds), if the population standard deviation of
the reference y-values or of the resampled candidate y-values is exactly
zero, the scorer returns 0 and does not raise. -/
theorem C8_zero_std_gives_zero (c1 c2 : CurveData) (h2 : 2 ≤ c2.x.length)
    (h : npStd c1.y = 0 ∨ npStd (c1.x.map (scipyInterp1d c2.points)) = 0) :
    calculateNcc c1 c2 = some 0 := by
  unfold calculateNcc
  rw [if_neg (by omega)]
  dsimp only
  rw [if_pos h]

theorem C8_zero_std_gives_zero_witness :
    (2 ≤ (CurveData.mk [0, 1] [0, 1]).x.length ∧
        npStd (CurveData.mk [0, 1] [3, 3]).y = 0) ∧
      calculateNcc (CurveData.mk [0, 1] [3, 3]) (CurveData.mk [0, 1] [0, 1]) = some 0 := by
  have hstd : npStd (CurveData.mk [0, 1] [3, 3]).y = 0 := by
    show Real.sqrt _ = 0
    norm_num [npMean]
  exact ⟨⟨by norm_num, hstd⟩,
    C8_zero_std_gives_zero _ _ (by norm_num) (Or.inl hstd)⟩

/-! ### Claim C9: tolerance caching on the simplifier instance -/

/-- C9: the first `simplify` call on a fresh instance resolves the tolerance
via the adaptive search and stores it; every subsequent call on the resulting
state reuses that stored tolerance without searching again, even on a
different curve, and leaves the state unchanged. -/
theorem C9_epsilon_cached (t : ℝ) (d₁ d₂ : CurveData) (r₁ : Option CurveData)
    (st₁ : SimplifierState) (e : ℝ)
    (hcall : simplify (SimplifierState.init t) d₁ = (r₁, st₁))
    (hstored : st₁.epsilon = some e) :
    findOptimalEpsilon t d₁ = some e ∧
      simplify st₁ d₂ = (simplifyWithEpsilon d₂ e, st₁) := by
  unfold simplify SimplifierState.init at hcall
  dsimp only at hcall
  match hfind : findOptimalEpsilon t d₁ with
  | none =>
    rw [hfind] at hcall
    cases hcall.symm
    simp at hstored
  | some eps =>
    rw [hfind] at hcall
    have hst : st₁ = ⟨t, some eps⟩ := congrArg Prod.snd hcall.symm
    have he : e = eps := by rw [hst] at hstored; simpa using hstored.symm
    subst he
    refine ⟨rfl, ?_⟩
    rw [hst]
    rfl

/-- Evaluating the first `simplify` call on a fresh instance configured with
target 0 and applied to the constant 3-point curve. -/
theorem const3_first_simplify :
    simplify (SimplifierState.init 0) (CurveData.mk [0, 1, 2] [5, 5, 5]) =
      (some (CurveData.mk [0, 2] [5, 5]), ⟨0, some ((1 / 1000000 + 1) / 2)⟩) := by
  unfold simplify SimplifierState.init
  dsimp only
  rw [const3_findOptimalEpsilon]
  dsimp only
  rw [const3_simplify _ (by norm_num)]

theorem C9_epsilon_cached_witness :
    (simplify (SimplifierState.init 0) (CurveData.mk [0, 1, 2] [5, 5, 5]) =
        (some (CurveData.mk [0, 2] [5, 5]), ⟨0, some ((1 / 1000000 + 1) / 2)⟩) ∧
      (SimplifierState.mk 0 (some ((1 / 1000000 + 1) / 2))).epsilon =
        some ((1 / 1000000 + 1) / 2)) ∧
      (findOptimalEpsilon 0 (CurveData.mk [0, 1, 2] [5, 5, 5]) =
          some ((1 / 1000000 + 1) / 2) ∧
        simplify (SimplifierState.mk 0 (some ((1 / 1000000 + 1) / 2)))
            (CurveData.mk [3, 4] [6, 7]) =
          (simplifyWithEpsilon (CurveData.mk [3, 4] [6, 7]) ((1 / 1000000 + 1) / 2),
            SimplifierState.mk 0 (some ((1 / 1000000 + 1) / 2)))) :=
  ⟨⟨const3_first_simplify, rfl⟩,
    C9_epsilon_cached 0 (CurveData.mk [0, 1, 2] [5, 5, 5]) (CurveData.mk [3, 4] [6, 7])
      (some (CurveData.mk [0, 2] [5, 5])) (SimplifierState.mk 0 (some ((1 / 1000000 + 1) / 2)))
      ((1 / 1000000 + 1) / 2) const3_first_simplify rfl⟩

end SciPlot
